import Mathlib

set_option linter.unusedSectionVars false

/-!
Verification of the five search strategies in `search.py`
(BreadthFirstSearch, DepthFirstSearch, UniformCostSearch, AStarSearch,
BestFirstSearch) against the repository specification.

The Python loops are embedded as fueled step functions over explicit
search states.  Python's `heapq` priority queue, whose entries are tuples
led by a primary key and an `itertools.count` tie-break counter, is
modelled by `popMinBy`, which removes the unique entry minimising the
lexicographic pair (primary key, counter).
-/

namespace SearchVerify

variable {S A : Type} [DecidableEq S] [DecidableEq A]

/-- Modelled from the spec: the abstract problem contract consumed by the
engine (the file `problem.py` is not part of the sources; section 6 of the
spec lists the four operations).  The non-negative real costs of the spec
are embedded as naturals. -/
structure Problem (S A : Type) where
  is_goal : S → Bool
  get_actions : S → List A
  get_successor : S → A → S
  get_cost : S → A → Nat

/-- Final state reached by following a list of actions from a state. -/
def runPath (p : Problem S A) : S → List A → S
  | s, [] => s
  | s, a :: rest => runPath p (p.get_successor s a) rest

/-- A path is valid when every action is offered by `get_actions` at the
state where it is taken. -/
def validPath (p : Problem S A) : S → List A → Bool
  | _, [] => true
  | s, a :: rest => decide (a ∈ p.get_actions s) && validPath p (p.get_successor s a) rest

/-- Total accumulated cost of a path, the sum of the step costs. -/
def pathCost (p : Problem S A) : S → List A → Nat
  | _, [] => 0
  | s, a :: rest => p.get_cost s a + pathCost p (p.get_successor s a) rest

/-- A valid path from `init` ending in a goal state. -/
def GoalPath (p : Problem S A) (init : S) (q : List A) : Prop :=
  validPath p init q = true ∧ p.is_goal (runPath p init q) = true

/-- Some goal state is reachable from `init` by a valid path. -/
def GoalReachable (p : Problem S A) (init : S) : Prop :=
  ∃ q, GoalPath p init q

/-- The set of states reachable from `init` is finite: some duplicate-free
list contains `init` and is closed under successors. -/
def FiniteReach (p : Problem S A) (init : S) : Prop :=
  ∃ R : List S, R.Nodup ∧ init ∈ R ∧
    ∀ s ∈ R, ∀ a ∈ p.get_actions s, p.get_successor s a ∈ R

/-- Outcome of one iteration of a search loop: either the loop returns a
final answer, or it continues with an updated search state. -/
inductive StepResult (R St : Type) where
  | done : R → StepResult R St
  | next : St → StepResult R St

/-- Fueled driver loop: `none` means the fuel ran out before the loop
returned; `some r` is the value returned by the Python `while` loop. -/
def iterLoop (step : St → StepResult R St) : Nat → St → Option R
  | 0, _ => none
  | fuel + 1, st =>
    match step st with
    | .done r => some r
    | .next st' => iterLoop step fuel st'

/-- Search state after exactly `n` loop iterations, `none` if the loop
returned before that. -/
def stepN (step : St → StepResult R St) : Nat → St → Option St
  | 0, st => some st
  | n + 1, st =>
    match step st with
    | .done _ => none
    | .next st' => stepN step n st'

/-- Strict lexicographic comparison of (primary key, counter) pairs, the
order by which Python compares the leading components of heap tuples. -/
def lexLtB (x y : Nat × Nat) : Bool :=
  x.1 < y.1 || (x.1 == y.1 && x.2 < y.2)

/-- Removal from Python's `heapq`: the unique entry minimising the pair
(primary key, tie-break counter) is removed and the remaining entries are
returned.  `κ` extracts that pair from an entry. -/
def popMinBy {E : Type} (κ : E → Nat × Nat) : List E → Option (E × List E)
  | [] => none
  | e :: es =>
    match popMinBy κ es with
    | none => some (e, es)
    | some (m, rest) => if lexLtB (κ e) (κ m) then some (e, es) else some (m, e :: rest)

/-- Frontier plus explored set, the mutable state of the breadth-first
and depth-first loops.  A frontier element pairs a state with the action
list that reached it. -/
structure FrontierState (S A : Type) where
  frontier : List (S × List A)
  explored : List S

/-- Inner for-loop of BreadthFirstSearch over the popped node's actions:
each unexplored child is goal-tested (early return as `Sum.inl`), else
appended to the frontier and marked explored on the spot. -/
def bfsExpand (p : Problem S A) (s : S) (acts : List A) :
    List A → List S → Sum (List A) (List (S × List A) × List S)
  | [], explored => .inr ([], explored)
  | a :: more, explored =>
    let child := p.get_successor s a
    if child ∈ explored then bfsExpand p s acts more explored
    else
      if p.is_goal child then .inl (acts ++ [a])
      else
        match bfsExpand p s acts more (child :: explored) with
        | .inl sol => .inl sol
        | .inr (added, exp') => .inr ((child, acts ++ [a]) :: added, exp')

/-- One iteration of the BreadthFirstSearch while loop: pop the node at
the front of the FIFO queue and process its successors. -/
def bfsStep (p : Problem S A) : FrontierState S A → StepResult (Option (List A)) (FrontierState S A)
  | ⟨[], _⟩ => .done none
  | ⟨(s, acts) :: rest, explored⟩ =>
    match bfsExpand p s acts (p.get_actions s) explored with
    | .inl sol => .done (some sol)
    | .inr (added, exp') => .next ⟨rest ++ added, exp'⟩

/-- BreadthFirstSearch of search.py.  `fuel` bounds the number of loop
iterations; the outer `none` means the bound was hit, `some r` is the
Python return value (`none` = Python None, `some acts` = a path). -/
def BreadthFirstSearch (p : Problem S A) (init : S) (fuel : Nat) : Option (Option (List A)) :=
  if p.is_goal init then some (some [])
  else iterLoop (bfsStep p) fuel ⟨[(init, [])], [init]⟩

/-- Inner for-loop of DepthFirstSearch: a child is pushed on the stack
(head = top) only when its state is neither explored nor present in the
current frontier, which includes children pushed earlier in the same
iteration. -/
def dfsPush (p : Problem S A) (s : S) (acts : List A) (explored : List S) :
    List A → List (S × List A) → List (S × List A)
  | [], front => front
  | a :: more, front =>
    let child := p.get_successor s a
    if child ∈ explored ∨ child ∈ front.map Prod.fst then
      dfsPush p s acts explored more front
    else
      dfsPush p s acts explored more ((child, acts ++ [a]) :: front)

/-- One iteration of the DepthFirstSearch while loop: pop the top of the
stack, mark it explored, goal-test it, then push its filtered children. -/
def dfsStep (p : Problem S A) : FrontierState S A → StepResult (Option (List A)) (FrontierState S A)
  | ⟨[], _⟩ => .done none
  | ⟨(s, acts) :: rest, explored⟩ =>
    if p.is_goal s then .done (some acts)
    else .next ⟨dfsPush p s acts (s :: explored) (p.get_actions s) rest, s :: explored⟩

/-- DepthFirstSearch of search.py, fueled as in `BreadthFirstSearch`. -/
def DepthFirstSearch (p : Problem S A) (init : S) (fuel : Nat) : Option (Option (List A)) :=
  if p.is_goal init then some (some [])
  else iterLoop (dfsStep p) fuel ⟨[(init, [])], []⟩

/-- A UniformCostSearch frontier entry, the Python tuple
(cost, counter, state, actions). -/
structure UCSEntry (S A : Type) where
  cost : Nat
  counter : Nat
  state : S
  actions : List A

/-- Heap ordering key of a UniformCostSearch entry. -/
def ucsKey (e : UCSEntry S A) : Nat × Nat := (e.cost, e.counter)

/-- Successor entries pushed by one UniformCostSearch expansion; the
tie-break counter increases by one per push. -/
def ucsChildren (p : Problem S A) (cost : Nat) (acts : List A) (s : S) :
    List A → Nat → List (UCSEntry S A)
  | [], _ => []
  | a :: more, c =>
    ⟨cost + p.get_cost s a, c, p.get_successor s a, acts ++ [a]⟩ ::
      ucsChildren p cost acts s more (c + 1)

/-- Mutable state of the UniformCostSearch loop: heap frontier, explored
set and the next value of the itertools counter. -/
structure UcsState (S A : Type) where
  frontier : List (UCSEntry S A)
  explored : List S
  counter : Nat

/-- One iteration of the UniformCostSearch while loop: pop the minimum
entry, goal-test it, discard it if its state is explored, otherwise mark
the state explored and push every successor. -/
def ucsStep (p : Problem S A) (st : UcsState S A) :
    StepResult (Option (List A)) (UcsState S A) :=
  match popMinBy ucsKey st.frontier with
  | none => .done none
  | some (m, rest) =>
    if p.is_goal m.state then .done (some m.actions)
    else if m.state ∈ st.explored then .next ⟨rest, st.explored, st.counter⟩
    else
      .next ⟨rest ++ ucsChildren p m.cost m.actions m.state (p.get_actions m.state) st.counter,
             m.state :: st.explored,
             st.counter + (p.get_actions m.state).length⟩

/-- UniformCostSearch of search.py: no initial goal short-circuit; the
initial entry is (0, 0, initial state, empty path). -/
def UniformCostSearch (p : Problem S A) (init : S) (fuel : Nat) : Option (Option (List A)) :=
  iterLoop (ucsStep p) fuel ⟨[⟨0, 0, init, []⟩], [], 1⟩

/-- An AStarSearch frontier entry, the Python tuple
(f value, counter, cost, state, actions). -/
structure AStarEntry (S A : Type) where
  f : Nat
  counter : Nat
  cost : Nat
  state : S
  actions : List A

/-- Heap ordering key of an AStarSearch entry. -/
def astarKey (e : AStarEntry S A) : Nat × Nat := (e.f, e.counter)

/-- Successor entries pushed by one AStarSearch expansion: children whose
state is already explored are skipped at generation time; the counter
increases only on an actual push. -/
def astarChildren (p : Problem S A) (h : S → Nat) (cost : Nat) (acts : List A) (s : S)
    (explored : List S) : List A → Nat → List (AStarEntry S A)
  | [], _ => []
  | a :: more, c =>
    let child := p.get_successor s a
    if child ∈ explored then astarChildren p h cost acts s explored more c
    else
      ⟨cost + p.get_cost s a + h child, c, cost + p.get_cost s a, child, acts ++ [a]⟩ ::
        astarChildren p h cost acts s explored more (c + 1)

/-- Mutable state of the AStarSearch loop. -/
structure AStarState (S A : Type) where
  frontier : List (AStarEntry S A)
  explored : List S
  counter : Nat

/-- One iteration of the AStarSearch while loop. -/
def astarStep (p : Problem S A) (h : S → Nat) (st : AStarState S A) :
    StepResult (Option (List A)) (AStarState S A) :=
  match popMinBy astarKey st.frontier with
  | none => .done none
  | some (m, rest) =>
    if p.is_goal m.state then .done (some m.actions)
    else if m.state ∈ st.explored then .next ⟨rest, st.explored, st.counter⟩
    else
      .next ⟨rest ++ astarChildren p h m.cost m.actions m.state (m.state :: st.explored)
                (p.get_actions m.state) st.counter,
             m.state :: st.explored,
             st.counter + (astarChildren p h m.cost m.actions m.state (m.state :: st.explored)
                (p.get_actions m.state) st.counter).length⟩

/-- AStarSearch of search.py: initial goal short-circuit, then a heap
seeded with (h(init), 0, 0, init, empty path). -/
def AStarSearch (p : Problem S A) (h : S → Nat) (init : S) (fuel : Nat) :
    Option (Option (List A)) :=
  if p.is_goal init then some (some [])
  else iterLoop (astarStep p h) fuel ⟨[⟨h init, 0, 0, init, []⟩], [], 1⟩

/-- A BestFirstSearch (greedy) frontier entry, the Python tuple
(heuristic, counter, state, actions); no accumulated cost is stored. -/
structure BestFEntry (S A : Type) where
  hval : Nat
  counter : Nat
  state : S
  actions : List A

/-- Heap ordering key of a BestFirstSearch entry. -/
def bestFKey (e : BestFEntry S A) : Nat × Nat := (e.hval, e.counter)

/-- Successor entries pushed by one BestFirstSearch expansion: explored
children are skipped at generation time. -/
def bestFChildren (p : Problem S A) (h : S → Nat) (acts : List A) (s : S)
    (explored : List S) : List A → Nat → List (BestFEntry S A)
  | [], _ => []
  | a :: more, c =>
    let child := p.get_successor s a
    if child ∈ explored then bestFChildren p h acts s explored more c
    else
      ⟨h child, c, child, acts ++ [a]⟩ :: bestFChildren p h acts s explored more (c + 1)

/-- Mutable state of the BestFirstSearch loop. -/
structure BestFState (S A : Type) where
  frontier : List (BestFEntry S A)
  explored : List S
  counter : Nat

/-- One iteration of the BestFirstSearch while loop. -/
def bestFStep (p : Problem S A) (h : S → Nat) (st : BestFState S A) :
    StepResult (Option (List A)) (BestFState S A) :=
  match popMinBy bestFKey st.frontier with
  | none => .done none
  | some (m, rest) =>
    if p.is_goal m.state then .done (some m.actions)
    else if m.state ∈ st.explored then .next ⟨rest, st.explored, st.counter⟩
    else
      .next ⟨rest ++ bestFChildren p h m.actions m.state (m.state :: st.explored)
                (p.get_actions m.state) st.counter,
             m.state :: st.explored,
             st.counter + (bestFChildren p h m.actions m.state (m.state :: st.explored)
                (p.get_actions m.state) st.counter).length⟩

/-- BestFirstSearch (greedy) of search.py. -/
def BestFirstSearch (p : Problem S A) (h : S → Nat) (init : S) (fuel : Nat) :
    Option (Option (List A)) :=
  if p.is_goal init then some (some [])
  else iterLoop (bestFStep p h) fuel ⟨[⟨h init, 0, init, []⟩], [], 1⟩

/-- Counter bookkeeping invariant of the UniformCostSearch loop: every
frontier entry carries a tie-break counter below the next counter value,
and no two frontier entries share a counter. -/
def ucsCounterInv (st : UcsState S A) : Prop :=
  (∀ e ∈ st.frontier, e.counter < st.counter) ∧ (st.frontier.map (·.counter)).Nodup

/-- Counter bookkeeping invariant of the AStarSearch loop. -/
def astarCounterInv (st : AStarState S A) : Prop :=
  (∀ e ∈ st.frontier, e.counter < st.counter) ∧ (st.frontier.map (·.counter)).Nodup

/-- Counter bookkeeping invariant of the BestFirstSearch loop. -/
def bestFCounterInv (st : BestFState S A) : Prop :=
  (∀ e ∈ st.frontier, e.counter < st.counter) ∧ (st.frontier.map (·.counter)).Nodup

/-- Concrete chain problem 0 -> 1 -> 2 with goal 2, one action per state
(scenario B of the spec). -/
def chainProb : Problem (Fin 4) (Fin 2) where
  is_goal s := s = 2
  get_actions s := if s = 0 ∨ s = 1 then [0] else []
  get_successor s _ := s + 1
  get_cost _ _ := 1

/-- Concrete problem of scenario C: from state 0, action 0 reaches the
goal 3 directly at cost 10, action 1 starts the three-hop route
0 -> 1 -> 2 -> 3 of cost 1 per hop. -/
def scenCProb : Problem (Fin 4) (Fin 2) where
  is_goal s := s = 3
  get_actions s := if s = 0 then [0, 1] else if s = 1 ∨ s = 2 then [0] else []
  get_successor s a :=
    if s = 0 then (if a = 0 then 3 else 1) else if s = 1 then 2 else if s = 2 then 3 else s
  get_cost s a := if s = 0 ∧ a = 0 then 10 else 1

/-- Concrete problem with an unreachable goal: 0 -> 1 and the goal 3 is
disconnected (scenario D of the spec). -/
def discProb : Problem (Fin 4) (Fin 2) where
  is_goal s := s = 3
  get_actions s := if s = 0 then [0] else []
  get_successor s _ := if s = 0 then 1 else s
  get_cost _ _ := 1

/-- Concrete cyclic problem: 0 -> 1, and from 1 action 0 loops back to 0
while action 1 reaches the goal 2. -/
def cycProb : Problem (Fin 3) (Fin 2) where
  is_goal s := s = 2
  get_actions s := if s = 0 then [0] else if s = 1 then [0, 1] else []
  get_successor s a := if s = 0 then 1 else (if a = 0 then 0 else 2)
  get_cost _ _ := 1

/-- Concrete cyclic problem used against claims C7 and C10: 0 -> 1, and
from 1 the first action reaches the goal 2 while the last action loops
back to the already-explored 0. -/
def loopBackProb : Problem (Fin 3) (Fin 2) where
  is_goal s := s = 2
  get_actions s := if s = 0 then [0] else if s = 1 then [0, 1] else []
  get_successor s a := if s = 0 then 1 else (if a = 0 then 2 else 0)
  get_cost _ _ := 1

/-- Concrete problem with two goal states 1 (via cost 1) and 2 (via cost
50), on which a triangle-consistent heuristic that is non-zero on a goal
makes AStarSearch return the cost-50 path. -/
def twoGoalProb : Problem (Fin 3) (Fin 2) where
  is_goal s := decide (s ≠ 0)
  get_actions s := if s = 0 then [0, 1] else []
  get_successor s a := if s = 0 then (if a = 0 then 1 else 2) else s
  get_cost s a := if s = 0 ∧ a = 0 then 1 else 50

/-- Heuristic for `twoGoalProb`: 100 on the cheap goal 1, 0 elsewhere;
it satisfies the edge triangle inequality. -/
def twoGoalHeur : Fin 3 → Nat := fun s => if s = 1 then 100 else 0

/-- Concrete problem on which greedy best-first search follows the
misleading heuristic: the route 0 -> 2 -> 3 costs 20 while 0 -> 1 -> 3
costs 2. -/
def greedyTrapProb : Problem (Fin 4) (Fin 2) where
  is_goal s := s = 3
  get_actions s := if s = 0 then [0, 1] else if s = 1 ∨ s = 2 then [0] else []
  get_successor s a := if s = 0 then (if a = 0 then 1 else 2) else 3
  get_cost s a := if s = 0 then (if a = 0 then 1 else 10) else if s = 1 then 1 else 10

/-- Heuristic for `greedyTrapProb`, smaller along the expensive route. -/
def greedyTrapHeur : Fin 4 → Nat :=
  fun s => if s = 0 then 7 else if s = 1 then 5 else if s = 2 then 1 else 0

/-- Concrete problem on which DepthFirstSearch returns the cost-10 path
[1, 0] to goal 2 although action 0 reaches goal 3 at cost 1, because the
stack explores the successor of the last pushed action first. -/
def dfsTrapProb : Problem (Fin 4) (Fin 2) where
  is_goal s := decide (s = 2 ∨ s = 3)
  get_actions s := if s = 0 then [0, 1] else if s = 1 then [0] else []
  get_successor s a := if s = 0 then (if a = 0 then 3 else 1) else if s = 1 then 2 else s
  get_cost s a := if s = 0 ∧ a = 0 then 1 else 5

/-- States expanded (successors generated) along the first `n` loop
iterations: `exps` reports the state a single step expands, if any. -/
def expandTrace (step : St → StepResult R St) (exps : St → Option S) : Nat → St → List S
  | 0, _ => []
  | n + 1, st =>
    (exps st).toList ++
      match step st with
      | .done _ => []
      | .next st' => expandTrace step exps n st'

/-- State expanded by one UniformCostSearch iteration: the popped state,
when it is neither a goal (immediate return) nor already explored
(silent discard). -/
def ucsExpands (p : Problem S A) (st : UcsState S A) : Option S :=
  match popMinBy ucsKey st.frontier with
  | none => none
  | some (m, _) =>
    if p.is_goal m.state then none
    else if m.state ∈ st.explored then none
    else some m.state

/-- State expanded by one AStarSearch iteration. -/
def astarExpands (p : Problem S A) (st : AStarState S A) : Option S :=
  match popMinBy astarKey st.frontier with
  | none => none
  | some (m, _) =>
    if p.is_goal m.state then none
    else if m.state ∈ st.explored then none
    else some m.state

/-- State expanded by one BestFirstSearch iteration. -/
def bestFExpands (p : Problem S A) (st : BestFState S A) : Option S :=
  match popMinBy bestFKey st.frontier with
  | none => none
  | some (m, _) =>
    if p.is_goal m.state then none
    else if m.state ∈ st.explored then none
    else some m.state

/-- State expanded by one BreadthFirstSearch iteration: every popped node
has its successors generated. -/
def bfsExpands (st : FrontierState S A) : Option S :=
  match st.frontier with
  | [] => none
  | (s, _) :: _ => some s

/-- Structural invariant of the BreadthFirstSearch state: frontier states
are pairwise distinct, already explored, and the explored list is
duplicate-free. -/
def bfsBaseInv (st : FrontierState S A) : Prop :=
  (st.frontier.map Prod.fst).Nodup ∧
  (∀ x ∈ st.frontier.map Prod.fst, x ∈ st.explored) ∧
  st.explored.Nodup

/-- Structural invariant of the DepthFirstSearch state: frontier states
are pairwise distinct and disjoint from the explored set (so a popped
node is never already explored). -/
def dfsBaseInv (st : FrontierState S A) : Prop :=
  (st.frontier.map Prod.fst).Nodup ∧ ∀ x ∈ st.frontier.map Prod.fst, x ∉ st.explored

/-- The frontier entry DepthFirstSearch builds for the successor of an
expanded state via one action. -/
def dfsChildEntry (p : Problem S A) (s : S) (acts : List A) (b : A) : S × List A :=
  (p.get_successor s b, acts ++ [b])

/-- The actions of an expansion whose successors pass the
DepthFirstSearch duplicate filter, in get_actions order; `seen` threads
the states of the frontier as it grows during the inner loop. -/
def dfsPushedActs (p : Problem S A) (ex : List S) (s : S) : List A → List S → List A
  | [], _ => []
  | a :: more, seen =>
    if p.get_successor s a ∈ ex ∨ p.get_successor s a ∈ seen then
      dfsPushedActs p ex s more seen
    else a :: dfsPushedActs p ex s more (p.get_successor s a :: seen)

/-- Termination weight of a state: one for the pending expansion plus one
per action (each action accounts for one future frontier entry). -/
def exploreWeight (p : Problem S A) (s : S) : Nat := 1 + (p.get_actions s).length

/-- Total weight of the not-yet-explored states of the finite closed
state list `R`; the termination measure of every loop adds the frontier
length to it. -/
def weightSum (p : Problem S A) (R explored : List S) : Nat :=
  ((R.filter (fun s => decide (s ∉ explored))).map (exploreWeight p)).sum

/-- Loop invariant of UniformCostSearch used for cost optimality: frontier
entries record valid paths with their exact accumulated cost; explored
states are never goals; the initial state is explored or seeded at cost
0; and every edge out of an explored state either leads into the explored
set or has a frontier entry whose cost is within the edge relaxation of
every valid path to the edge's source. -/
def ucsInv (p : Problem S A) (init : S) (st : UcsState S A) : Prop :=
  (∀ e ∈ st.frontier, validPath p init e.actions = true ∧
    runPath p init e.actions = e.state ∧ pathCost p init e.actions = e.cost) ∧
  (∀ s ∈ st.explored, p.is_goal s = false) ∧
  (init ∈ st.explored ∨ ∃ e ∈ st.frontier, e.state = init ∧ e.cost = 0) ∧
  (∀ x ∈ st.explored, ∀ b ∈ p.get_actions x,
    p.get_successor x b ∈ st.explored ∨
    ∃ e ∈ st.frontier, e.state = p.get_successor x b ∧
      ∀ q, validPath p init q = true → runPath p init q = x →
        e.cost ≤ pathCost p init q + p.get_cost x b)

/-- The caller obligation on the AStarSearch heuristic stated in the
spec's glossary: the triangle inequality across every edge. -/
def Consistent (p : Problem S A) (h : S → Nat) : Prop :=
  ∀ s : S, ∀ a ∈ p.get_actions s, h s ≤ p.get_cost s a + h (p.get_successor s a)

/-- Loop invariant of AStarSearch used for cost optimality; entries also
record f = accumulated cost plus heuristic of their state. -/
def astarInv (p : Problem S A) (h : S → Nat) (init : S) (st : AStarState S A) : Prop :=
  (∀ e ∈ st.frontier, validPath p init e.actions = true ∧
    runPath p init e.actions = e.state ∧ pathCost p init e.actions = e.cost ∧
    e.f = e.cost + h e.state) ∧
  (∀ s ∈ st.explored, p.is_goal s = false) ∧
  (init ∈ st.explored ∨ ∃ e ∈ st.frontier, e.state = init ∧ e.cost = 0) ∧
  (∀ x ∈ st.explored, ∀ b ∈ p.get_actions x,
    p.get_successor x b ∈ st.explored ∨
    ∃ e ∈ st.frontier, e.state = p.get_successor x b ∧
      ∀ q, validPath p init q = true → runPath p init q = x →
        e.cost ≤ pathCost p init q + p.get_cost x b)

/-- Loop invariant of BreadthFirstSearch used for shortest-path (edge
count) optimality.  Frontier entries hold valid paths to their already
explored, non-goal states; path lengths along the FIFO queue are
non-decreasing and span at most two consecutive values; any valid path to
an unexplored state is strictly longer than some frontier entry; every
explored state is still pending in the frontier or has all its
successors explored; and every frontier entry's path is a shortest valid
path to its state. -/
structure BfsInv (p : Problem S A) (init : S) (st : FrontierState S A) : Prop where
  initExplored : init ∈ st.explored
  entries : ∀ e ∈ st.frontier, validPath p init e.2 = true ∧
    runPath p init e.2 = e.1 ∧ e.1 ∈ st.explored
  noGoal : ∀ s ∈ st.explored, p.is_goal s = false
  sorted : List.Pairwise (· ≤ ·) (st.frontier.map (fun e => e.2.length))
  twoLayer : ∀ e ∈ st.frontier, ∀ e' ∈ st.frontier, e.2.length ≤ e'.2.length + 1
  cover : ∀ q, validPath p init q = true → runPath p init q ∉ st.explored →
    ∃ e ∈ st.frontier, e.2.length + 1 ≤ q.length
  pendingOrClosed : ∀ u ∈ st.explored, (∃ e ∈ st.frontier, e.1 = u) ∨
    (∀ b ∈ p.get_actions u, p.get_successor u b ∈ st.explored)
  entryOpt : ∀ e ∈ st.frontier, ∀ q, validPath p init q = true →
    runPath p init q = e.1 → e.2.length ≤ q.length

-- Theorems: everything below is proved about the definitions above.

theorem runPath_append (p : Problem S A) (s : S) (q₁ q₂ : List A) :
    runPath p s (q₁ ++ q₂) = runPath p (runPath p s q₁) q₂ := by
  induction q₁ generalizing s with
  | nil => rfl
  | cons a rest ih => simp [runPath, ih]

theorem pathCost_append (p : Problem S A) (s : S) (q₁ q₂ : List A) :
    pathCost p s (q₁ ++ q₂) = pathCost p s q₁ + pathCost p (runPath p s q₁) q₂ := by
  induction q₁ generalizing s with
  | nil => simp [pathCost, runPath]
  | cons a rest ih => simp [pathCost, runPath, ih, Nat.add_assoc]

theorem validPath_append (p : Problem S A) (s : S) (q₁ q₂ : List A) :
    validPath p s (q₁ ++ q₂) = (validPath p s q₁ && validPath p (runPath p s q₁) q₂) := by
  induction q₁ generalizing s with
  | nil => simp [validPath, runPath]
  | cons a rest ih => simp [validPath, runPath, ih, Bool.and_assoc]

theorem validPath_snoc (p : Problem S A) (s : S) (q : List A) (b : A) :
    validPath p s (q ++ [b]) =
      (validPath p s q && decide (b ∈ p.get_actions (runPath p s q))) := by
  simp [validPath_append, validPath]

theorem runPath_snoc (p : Problem S A) (s : S) (q : List A) (b : A) :
    runPath p s (q ++ [b]) = p.get_successor (runPath p s q) b := by
  simp [runPath_append, runPath]

theorem pathCost_snoc (p : Problem S A) (s : S) (q : List A) (b : A) :
    pathCost p s (q ++ [b]) = pathCost p s q + p.get_cost (runPath p s q) b := by
  simp [pathCost_append, pathCost]

theorem iterLoop_mono (step : St → StepResult R St) {n m : Nat} {st : St} {r : R}
    (h : iterLoop step n st = some r) (hnm : n ≤ m) : iterLoop step m st = some r := by
  induction n generalizing st m with
  | zero => simp [iterLoop] at h
  | succ k ih =>
    obtain ⟨m', rfl⟩ : ∃ m', m = m' + 1 := ⟨m - 1, by omega⟩
    rw [iterLoop] at h ⊢
    cases hs : step st with
    | done r' => rw [hs] at h; exact h
    | next st' => rw [hs] at h; exact ih h (by omega)

theorem iterLoop_inv (step : St → StepResult R St) (Inv : St → Prop) (P : R → Prop)
    (hnext : ∀ st st', Inv st → step st = .next st' → Inv st')
    (hdone : ∀ st r, Inv st → step st = .done r → P r) :
    ∀ fuel st r, Inv st → iterLoop step fuel st = some r → P r := by
  intro fuel
  induction fuel with
  | zero => intro st r _ h; simp [iterLoop] at h
  | succ k ih =>
    intro st r hInv h
    rw [iterLoop] at h
    cases hs : step st with
    | done r' => rw [hs] at h; cases h; exact hdone st r hInv hs
    | next st' => rw [hs] at h; exact ih st' r (hnext st st' hInv hs) h

theorem iterLoop_of_measure (step : St → StepResult R St) (Inv : St → Prop) (μ : St → Nat)
    (hnext : ∀ st st', Inv st → step st = .next st' → Inv st' ∧ μ st' < μ st) :
    ∀ st, Inv st → ∃ r, iterLoop step (μ st + 1) st = some r := by
  suffices key : ∀ n st, μ st ≤ n → Inv st → ∃ r, iterLoop step (μ st + 1) st = some r by
    intro st hInv
    exact key (μ st) st le_rfl hInv
  intro n
  induction n with
  | zero =>
    intro st hle hInv
    rw [iterLoop]
    cases hs : step st with
    | done r => exact ⟨r, rfl⟩
    | next st' =>
      obtain ⟨_, hlt⟩ := hnext st st' hInv hs
      omega
  | succ k ih =>
    intro st hle hInv
    rw [iterLoop]
    cases hs : step st with
    | done r => exact ⟨r, rfl⟩
    | next st' =>
      obtain ⟨hInv', hlt⟩ := hnext st st' hInv hs
      obtain ⟨r, hr⟩ := ih st' (by omega) hInv'
      exact ⟨r, iterLoop_mono step hr (by omega)⟩

theorem stepN_inv (step : St → StepResult R St) (Inv : St → Prop)
    (hnext : ∀ st st', Inv st → step st = .next st' → Inv st') :
    ∀ n st st', Inv st → stepN step n st = some st' → Inv st' := by
  intro n
  induction n with
  | zero => intro st st' hInv h; rw [stepN] at h; cases h; exact hInv
  | succ k ih =>
    intro st st' hInv h
    rw [stepN] at h
    cases hs : step st with
    | done r => rw [hs] at h; cases h
    | next st₁ => rw [hs] at h; exact ih st₁ st' (hnext st st₁ hInv hs) h

theorem lexLtB_irrefl (x : Nat × Nat) : lexLtB x x = false := by
  simp [lexLtB]

theorem lexLtB_trans {x y z : Nat × Nat} (h₁ : lexLtB x y = true) (h₂ : lexLtB y z = true) :
    lexLtB x z = true := by
  simp only [lexLtB, Bool.or_eq_true, Bool.and_eq_true, decide_eq_true_eq, beq_iff_eq] at *
  omega

theorem lexLtB_false_iff (x y : Nat × Nat) :
    lexLtB x y = false ↔ (y.1 ≤ x.1 ∧ (y.1 = x.1 → y.2 ≤ x.2)) := by
  simp only [lexLtB, Bool.or_eq_false_iff, Bool.and_eq_false_iff, decide_eq_false_iff_not,
    Nat.not_lt, beq_eq_false_iff_ne, ne_eq]
  omega

theorem popMinBy_none_iff {E : Type} (κ : E → Nat × Nat) (l : List E) :
    popMinBy κ l = none ↔ l = [] := by
  cases l with
  | nil => simp [popMinBy]
  | cons e es =>
    rw [popMinBy]
    cases h : popMinBy κ es with
    | none => simp
    | some pr =>
      obtain ⟨m, rest⟩ := pr
      by_cases hlt : lexLtB (κ e) (κ m) = true <;> simp [hlt]

theorem popMinBy_perm {E : Type} (κ : E → Nat × Nat) :
    ∀ {l : List E} {m : E} {rest : List E},
      popMinBy κ l = some (m, rest) → l.Perm (m :: rest) := by
  intro l
  induction l with
  | nil => intro m rest h; simp [popMinBy] at h
  | cons e es ih =>
    intro m rest h
    cases hrec : popMinBy κ es with
    | none =>
      rw [popMinBy, hrec] at h
      obtain rfl : es = [] := (popMinBy_none_iff κ es).mp hrec
      cases h
      exact List.Perm.refl _
    | some pr =>
      obtain ⟨m', rest'⟩ := pr
      simp only [popMinBy, hrec] at h
      by_cases hlt : lexLtB (κ e) (κ m') = true
      · rw [if_pos hlt] at h
        cases h
        exact List.Perm.refl _
      · rw [if_neg hlt] at h
        cases h
        exact ((ih hrec).cons e).trans (List.Perm.swap m e _)

theorem popMinBy_min {E : Type} (κ : E → Nat × Nat) :
    ∀ {l : List E} {m : E} {rest : List E},
      popMinBy κ l = some (m, rest) → ∀ e ∈ l, lexLtB (κ e) (κ m) = false := by
  intro l
  induction l with
  | nil => intro m rest h; simp [popMinBy] at h
  | cons e es ih =>
    intro m rest h x hx
    cases hrec : popMinBy κ es with
    | none =>
      rw [popMinBy, hrec] at h
      obtain rfl : es = [] := (popMinBy_none_iff κ es).mp hrec
      cases h
      rcases List.mem_singleton.mp hx with rfl
      exact lexLtB_irrefl _
    | some pr =>
      obtain ⟨m', rest'⟩ := pr
      simp only [popMinBy, hrec] at h
      by_cases hlt : lexLtB (κ e) (κ m') = true
      · rw [if_pos hlt] at h
        cases h
        rcases List.mem_cons.mp hx with rfl | hxs
        · exact lexLtB_irrefl _
        · by_contra hc
          rw [Bool.not_eq_false] at hc
          have := lexLtB_trans hc hlt
          rw [ih hrec x hxs] at this
          cases this
      · rw [if_neg hlt] at h
        cases h
        rcases List.mem_cons.mp hx with rfl | hxs
        · exact Bool.not_eq_true _ |>.mp hlt
        · exact ih hrec x hxs

theorem popMinBy_mem {E : Type} (κ : E → Nat × Nat) {l : List E} {m : E} {rest : List E}
    (h : popMinBy κ l = some (m, rest)) : m ∈ l :=
  (popMinBy_perm κ h).mem_iff.mpr (List.mem_cons_self m rest)

theorem popMinBy_mem_of_mem {E : Type} (κ : E → Nat × Nat) {l : List E} {m : E} {rest : List E}
    (h : popMinBy κ l = some (m, rest)) {e : E} (he : e ∈ l) : e = m ∨ e ∈ rest := by
  have := (popMinBy_perm κ h).mem_iff.mp he
  simpa using this

theorem popMinBy_rest_subset {E : Type} (κ : E → Nat × Nat) {l : List E} {m : E} {rest : List E}
    (h : popMinBy κ l = some (m, rest)) {e : E} (he : e ∈ rest) : e ∈ l :=
  (popMinBy_perm κ h).mem_iff.mpr (List.mem_cons_of_mem m he)

theorem popMinBy_length {E : Type} (κ : E → Nat × Nat) {l : List E} {m : E} {rest : List E}
    (h : popMinBy κ l = some (m, rest)) : l.length = rest.length + 1 := by
  have := (popMinBy_perm κ h).length_eq
  simpa using this

theorem popMinBy_singleton {E : Type} (κ : E → Nat × Nat) (e : E) :
    popMinBy κ [e] = some (e, []) := by
  simp [popMinBy]

theorem ucsStep_initial_goal (p : Problem S A) (init : S) (hg : p.is_goal init = true) :
    ucsStep p ⟨[⟨0, 0, init, []⟩], [], 1⟩ = .done (some []) := by
  simp [ucsStep, popMinBy_singleton, hg]

theorem UniformCostSearch_initial_goal (p : Problem S A) (init : S) (fuel : Nat)
    (hg : p.is_goal init = true) :
    UniformCostSearch p init (fuel + 1) = some (some []) := by
  rw [UniformCostSearch, iterLoop, ucsStep_initial_goal p init hg]

/-- Claim C3: if the initial state already satisfies the goal test, all
five strategies return the empty action list (UniformCostSearch after its
first loop iteration, the other four by their explicit short-circuit), and
none of them consults get_actions, get_successor, get_cost or the
heuristic: the result is unchanged when those operations (and the
heuristic) are replaced arbitrarily, as long as is_goal is kept. -/
theorem claimC3 (p q : Problem S A) (h₁ h₂ : S → Nat) (init : S) (fuel : Nat)
    (hg : p.is_goal init = true) (hiq : ∀ s, p.is_goal s = q.is_goal s) :
    BreadthFirstSearch p init fuel = some (some []) ∧
    DepthFirstSearch p init fuel = some (some []) ∧
    UniformCostSearch p init (fuel + 1) = some (some []) ∧
    AStarSearch p h₁ init fuel = some (some []) ∧
    BestFirstSearch p h₁ init fuel = some (some []) ∧
    BreadthFirstSearch p init fuel = BreadthFirstSearch q init fuel ∧
    DepthFirstSearch p init fuel = DepthFirstSearch q init fuel ∧
    (∀ f, UniformCostSearch p init f = UniformCostSearch q init f) ∧
    AStarSearch p h₁ init fuel = AStarSearch q h₂ init fuel ∧
    BestFirstSearch p h₁ init fuel = BestFirstSearch q h₂ init fuel := by
  have hgq : q.is_goal init = true := by rw [← hiq init]; exact hg
  refine ⟨?_, ?_, ?_, ?_, ?_, ?_, ?_, ?_, ?_, ?_⟩
  · simp [BreadthFirstSearch, hg]
  · simp [DepthFirstSearch, hg]
  · exact UniformCostSearch_initial_goal p init fuel hg
  · simp [AStarSearch, hg]
  · simp [BestFirstSearch, hg]
  · simp [BreadthFirstSearch, hg, hgq]
  · simp [DepthFirstSearch, hg, hgq]
  · intro f
    cases f with
    | zero => rfl
    | succ f' =>
      rw [UniformCostSearch_initial_goal p init f' hg,
          UniformCostSearch_initial_goal q init f' hgq]
  · simp [AStarSearch, hg, hgq]
  · simp [BestFirstSearch, hg, hgq]

/-- Witness for C3 on a concrete one-state goal problem. -/
theorem claimC3_witness :
    BreadthFirstSearch ⟨fun _ => true, fun _ => [0], fun s _ => s, fun _ _ => 1⟩
      (0 : Fin 1) 5 = some (some ([] : List (Fin 1))) :=
  (claimC3 (A := Fin 1) ⟨fun _ => true, fun _ => [0], fun s _ => s, fun _ _ => 1⟩
    ⟨fun _ => true, fun _ => [], fun s _ => s, fun _ _ => 0⟩
    (fun _ => 0) (fun _ => 0) 0 5 rfl (fun _ => rfl)).1

theorem ucsChildren_counter_bounds (p : Problem S A) (cost : Nat) (acts : List A) (s : S) :
    ∀ (l : List A) (c : Nat), ∀ e ∈ ucsChildren p cost acts s l c,
      c ≤ e.counter ∧ e.counter < c + l.length := by
  intro l
  induction l with
  | nil => intro c e he; simp [ucsChildren] at he
  | cons a more ih =>
    intro c e he
    rw [ucsChildren] at he
    rcases List.mem_cons.mp he with rfl | hmem
    · simp
    · have := ih (c + 1) e hmem
      simp only [List.length_cons]
      omega

theorem ucsChildren_counter_nodup (p : Problem S A) (cost : Nat) (acts : List A) (s : S) :
    ∀ (l : List A) (c : Nat), ((ucsChildren p cost acts s l c).map (·.counter)).Nodup := by
  intro l
  induction l with
  | nil => intro c; simp [ucsChildren]
  | cons a more ih =>
    intro c
    rw [ucsChildren]
    simp only [List.map_cons, List.nodup_cons]
    refine ⟨?_, ih (c + 1)⟩
    intro hc
    obtain ⟨e, he, hec⟩ := List.mem_map.mp hc
    have := (ucsChildren_counter_bounds p cost acts s more (c + 1) e he).1
    omega

theorem astarChildren_counter_bounds (p : Problem S A) (h : S → Nat) (cost : Nat)
    (acts : List A) (s : S) (explored : List S) :
    ∀ (l : List A) (c : Nat), ∀ e ∈ astarChildren p h cost acts s explored l c,
      c ≤ e.counter ∧ e.counter < c + (astarChildren p h cost acts s explored l c).length := by
  intro l
  induction l with
  | nil => intro c e he; simp [astarChildren] at he
  | cons a more ih =>
    intro c e he
    rw [astarChildren] at he ⊢
    by_cases hx : p.get_successor s a ∈ explored
    · rw [if_pos hx] at he ⊢
      exact ih c e he
    · rw [if_neg hx] at he ⊢
      rcases List.mem_cons.mp he with rfl | hmem
      · simp
      · have := ih (c + 1) e hmem
        simp only [List.length_cons]
        omega

theorem astarChildren_counter_nodup (p : Problem S A) (h : S → Nat) (cost : Nat)
    (acts : List A) (s : S) (explored : List S) :
    ∀ (l : List A) (c : Nat), ((astarChildren p h cost acts s explored l c).map (·.counter)).Nodup := by
  intro l
  induction l with
  | nil => intro c; simp [astarChildren]
  | cons a more ih =>
    intro c
    rw [astarChildren]
    by_cases hx : p.get_successor s a ∈ explored
    · rw [if_pos hx]; exact ih c
    · rw [if_neg hx]
      simp only [List.map_cons, List.nodup_cons]
      refine ⟨?_, ih (c + 1)⟩
      intro hc
      obtain ⟨e, he, hec⟩ := List.mem_map.mp hc
      have := (astarChildren_counter_bounds p h cost acts s explored more (c + 1) e he).1
      omega

theorem bestFChildren_counter_bounds (p : Problem S A) (h : S → Nat)
    (acts : List A) (s : S) (explored : List S) :
    ∀ (l : List A) (c : Nat), ∀ e ∈ bestFChildren p h acts s explored l c,
      c ≤ e.counter ∧ e.counter < c + (bestFChildren p h acts s explored l c).length := by
  intro l
  induction l with
  | nil => intro c e he; simp [bestFChildren] at he
  | cons a more ih =>
    intro c e he
    rw [bestFChildren] at he ⊢
    by_cases hx : p.get_successor s a ∈ explored
    · rw [if_pos hx] at he ⊢
      exact ih c e he
    · rw [if_neg hx] at he ⊢
      rcases List.mem_cons.mp he with rfl | hmem
      · simp
      · have := ih (c + 1) e hmem
        simp only [List.length_cons]
        omega

theorem bestFChildren_counter_nodup (p : Problem S A) (h : S → Nat)
    (acts : List A) (s : S) (explored : List S) :
    ∀ (l : List A) (c : Nat), ((bestFChildren p h acts s explored l c).map (·.counter)).Nodup := by
  intro l
  induction l with
  | nil => intro c; simp [bestFChildren]
  | cons a more ih =>
    intro c
    rw [bestFChildren]
    by_cases hx : p.get_successor s a ∈ explored
    · rw [if_pos hx]; exact ih c
    · rw [if_neg hx]
      simp only [List.map_cons, List.nodup_cons]
      refine ⟨?_, ih (c + 1)⟩
      intro hc
      obtain ⟨e, he, hec⟩ := List.mem_map.mp hc
      have := (bestFChildren_counter_bounds p h acts s explored more (c + 1) e he).1
      omega

theorem popMinBy_min_pair {E : Type} (κ : E → Nat × Nat) {l : List E} {m : E} {rest : List E}
    (h : popMinBy κ l = some (m, rest)) {e : E} (he : e ∈ l) :
    (κ m).1 < (κ e).1 ∨ ((κ m).1 = (κ e).1 ∧ (κ m).2 ≤ (κ e).2) := by
  have := (lexLtB_false_iff (κ e) (κ m)).mp (popMinBy_min κ h e he)
  omega

theorem ucsCounterInv_step (p : Problem S A) (st st' : UcsState S A)
    (hInv : ucsCounterInv st) (hs : ucsStep p st = .next st') : ucsCounterInv st' := by
  obtain ⟨hlt, hnd⟩ := hInv
  cases hpop : popMinBy ucsKey st.frontier with
  | none => rw [ucsStep, hpop] at hs; cases hs
  | some pr =>
    obtain ⟨m, rest⟩ := pr
    simp only [ucsStep, hpop] at hs
    have hperm := (popMinBy_perm ucsKey hpop).map (·.counter)
    have hndrest : (rest.map (·.counter)).Nodup :=
      List.Nodup.of_cons (hperm.nodup_iff.mp hnd)
    by_cases hg : p.is_goal m.state = true
    · rw [if_pos hg] at hs; cases hs
    · rw [if_neg hg] at hs
      by_cases hm : m.state ∈ st.explored
      · rw [if_pos hm] at hs
        cases hs
        exact ⟨fun e he => hlt e (popMinBy_rest_subset ucsKey hpop he), hndrest⟩
      · rw [if_neg hm] at hs
        cases hs
        constructor
        · intro e he
          dsimp only at he ⊢
          rcases List.mem_append.mp he with hr | hc
          · have := hlt e (popMinBy_rest_subset ucsKey hpop hr)
            omega
          · have := ucsChildren_counter_bounds p m.cost m.actions m.state _ _ e hc
            omega
        · dsimp only
          rw [List.map_append, List.nodup_append]
          refine ⟨hndrest, ucsChildren_counter_nodup p m.cost m.actions m.state _ _, ?_⟩
          intro x hx hx'
          obtain ⟨e, he, rfl⟩ := List.mem_map.mp hx
          obtain ⟨e', he', hee⟩ := List.mem_map.mp hx'
          have h1 := hlt e (popMinBy_rest_subset ucsKey hpop he)
          have h2 := (ucsChildren_counter_bounds p m.cost m.actions m.state _ _ e' he').1
          omega

theorem astarCounterInv_step (p : Problem S A) (h : S → Nat) (st st' : AStarState S A)
    (hInv : astarCounterInv st) (hs : astarStep p h st = .next st') : astarCounterInv st' := by
  obtain ⟨hlt, hnd⟩ := hInv
  cases hpop : popMinBy astarKey st.frontier with
  | none => rw [astarStep, hpop] at hs; cases hs
  | some pr =>
    obtain ⟨m, rest⟩ := pr
    simp only [astarStep, hpop] at hs
    have hperm := (popMinBy_perm astarKey hpop).map (·.counter)
    have hndrest : (rest.map (·.counter)).Nodup :=
      List.Nodup.of_cons (hperm.nodup_iff.mp hnd)
    by_cases hg : p.is_goal m.state = true
    · rw [if_pos hg] at hs; cases hs
    · rw [if_neg hg] at hs
      by_cases hm : m.state ∈ st.explored
      · rw [if_pos hm] at hs
        cases hs
        exact ⟨fun e he => hlt e (popMinBy_rest_subset astarKey hpop he), hndrest⟩
      · rw [if_neg hm] at hs
        cases hs
        constructor
        · intro e he
          dsimp only at he ⊢
          rcases List.mem_append.mp he with hr | hc
          · have h1 := hlt e (popMinBy_rest_subset astarKey hpop hr)
            omega
          · have := astarChildren_counter_bounds p h m.cost m.actions m.state _ _ _ e hc
            omega
        · dsimp only
          rw [List.map_append, List.nodup_append]
          refine ⟨hndrest, astarChildren_counter_nodup p h m.cost m.actions m.state _ _ _, ?_⟩
          intro x hx hx'
          obtain ⟨e, he, rfl⟩ := List.mem_map.mp hx
          obtain ⟨e', he', hee⟩ := List.mem_map.mp hx'
          have h1 := hlt e (popMinBy_rest_subset astarKey hpop he)
          have h2 := (astarChildren_counter_bounds p h m.cost m.actions m.state _ _ _ e' he').1
          omega

theorem bestFCounterInv_step (p : Problem S A) (h : S → Nat) (st st' : BestFState S A)
    (hInv : bestFCounterInv st) (hs : bestFStep p h st = .next st') : bestFCounterInv st' := by
  obtain ⟨hlt, hnd⟩ := hInv
  cases hpop : popMinBy bestFKey st.frontier with
  | none => rw [bestFStep, hpop] at hs; cases hs
  | some pr =>
    obtain ⟨m, rest⟩ := pr
    simp only [bestFStep, hpop] at hs
    have hperm := (popMinBy_perm bestFKey hpop).map (·.counter)
    have hndrest : (rest.map (·.counter)).Nodup :=
      List.Nodup.of_cons (hperm.nodup_iff.mp hnd)
    by_cases hg : p.is_goal m.state = true
    · rw [if_pos hg] at hs; cases hs
    · rw [if_neg hg] at hs
      by_cases hm : m.state ∈ st.explored
      · rw [if_pos hm] at hs
        cases hs
        exact ⟨fun e he => hlt e (popMinBy_rest_subset bestFKey hpop he), hndrest⟩
      · rw [if_neg hm] at hs
        cases hs
        constructor
        · intro e he
          dsimp only at he ⊢
          rcases List.mem_append.mp he with hr | hc
          · have := hlt e (popMinBy_rest_subset bestFKey hpop hr)
            omega
          · have := bestFChildren_counter_bounds p h m.actions m.state _ _ _ e hc
            omega
        · dsimp only
          rw [List.map_append, List.nodup_append]
          refine ⟨hndrest, bestFChildren_counter_nodup p h m.actions m.state _ _ _, ?_⟩
          intro x hx hx'
          obtain ⟨e, he, rfl⟩ := List.mem_map.mp hx
          obtain ⟨e', he', hee⟩ := List.mem_map.mp hx'
          have h1 := hlt e (popMinBy_rest_subset bestFKey hpop he)
          have h2 := (bestFChildren_counter_bounds p h m.actions m.state _ _ _ e' he').1
          omega

/-- Claim C6: along any run of the three priority-queue strategies, the
frontier never holds two entries with the same tie-break counter and all
counters are below the next counter value (insertion numbers strictly
increase); the entry removed by a pop minimises the primary key
(accumulated cost for UniformCostSearch, heuristic value for
BestFirstSearch, cost plus heuristic for AStarSearch, the latter recorded
in the entry's f field), and among entries of equal primary key the one
with the smallest insertion number, i.e. the earliest inserted, is the
one removed. -/
theorem claimC6 (p : Problem S A) (h : S → Nat) (init : S) :
    (∀ n st, stepN (ucsStep p) n ⟨[⟨0, 0, init, []⟩], [], 1⟩ = some st →
      ((∀ e ∈ st.frontier, e.counter < st.counter) ∧
        (st.frontier.map (·.counter)).Nodup) ∧
      ∀ m rest, popMinBy ucsKey st.frontier = some (m, rest) →
        ∀ e ∈ st.frontier, m.cost < e.cost ∨ (m.cost = e.cost ∧ m.counter ≤ e.counter)) ∧
    (∀ n st, stepN (astarStep p h) n ⟨[⟨h init, 0, 0, init, []⟩], [], 1⟩ = some st →
      ((∀ e ∈ st.frontier, e.counter < st.counter) ∧
        (st.frontier.map (·.counter)).Nodup) ∧
      ∀ m rest, popMinBy astarKey st.frontier = some (m, rest) →
        ∀ e ∈ st.frontier, m.f < e.f ∨ (m.f = e.f ∧ m.counter ≤ e.counter)) ∧
    (∀ n st, stepN (bestFStep p h) n ⟨[⟨h init, 0, init, []⟩], [], 1⟩ = some st →
      ((∀ e ∈ st.frontier, e.counter < st.counter) ∧
        (st.frontier.map (·.counter)).Nodup) ∧
      ∀ m rest, popMinBy bestFKey st.frontier = some (m, rest) →
        ∀ e ∈ st.frontier, m.hval < e.hval ∨ (m.hval = e.hval ∧ m.counter ≤ e.counter)) := by
  refine ⟨?_, ?_, ?_⟩
  · intro n st hst
    refine ⟨stepN_inv (ucsStep p) ucsCounterInv (ucsCounterInv_step p) n _ st ?_ hst, ?_⟩
    · exact ⟨by simp, by simp⟩
    · intro m rest hpop e he
      exact popMinBy_min_pair ucsKey hpop he
  · intro n st hst
    refine ⟨stepN_inv (astarStep p h) astarCounterInv (astarCounterInv_step p h) n _ st ?_ hst, ?_⟩
    · exact ⟨by simp, by simp⟩
    · intro m rest hpop e he
      exact popMinBy_min_pair astarKey hpop he
  · intro n st hst
    refine ⟨stepN_inv (bestFStep p h) bestFCounterInv (bestFCounterInv_step p h) n _ st ?_ hst, ?_⟩
    · exact ⟨by simp, by simp⟩
    · intro m rest hpop e he
      exact popMinBy_min_pair bestFKey hpop he

/-- Witness for C6: after one UniformCostSearch iteration on the
scenario-C problem the frontier holds the cost-10 and cost-1 entries, and
the pop removes the cost-1 entry. -/
theorem claimC6_witness :
    popMinBy ucsKey [(⟨10, 1, 3, [0]⟩ : UCSEntry (Fin 4) (Fin 2)), ⟨1, 2, 1, [1]⟩] =
      some (⟨1, 2, 1, [1]⟩, [⟨10, 1, 3, [0]⟩]) ∧
    ((1 : Nat) < 10 ∨ ((1 : Nat) = 10 ∧ (2 : Nat) ≤ 1)) := by
  refine ⟨rfl, ?_⟩
  have h := (claimC6 scenCProb (fun _ => 0) 0).1 1
    ⟨[⟨10, 1, 3, [0]⟩, ⟨1, 2, 1, [1]⟩], [0], 3⟩ rfl
  exact h.2 ⟨1, 2, 1, [1]⟩ [⟨10, 1, 3, [0]⟩] rfl ⟨10, 1, 3, [0]⟩ (by simp)

theorem ucsStep_next (p : Problem S A) {st st' : UcsState S A}
    (hs : ucsStep p st = .next st') :
    ∃ m rest, popMinBy ucsKey st.frontier = some (m, rest) ∧ p.is_goal m.state = false ∧
      ((m.state ∈ st.explored ∧ st' = ⟨rest, st.explored, st.counter⟩) ∨
       (m.state ∉ st.explored ∧
        st' = ⟨rest ++ ucsChildren p m.cost m.actions m.state (p.get_actions m.state) st.counter,
               m.state :: st.explored,
               st.counter + (p.get_actions m.state).length⟩)) := by
  cases hpop : popMinBy ucsKey st.frontier with
  | none => rw [ucsStep, hpop] at hs; cases hs
  | some pr =>
    obtain ⟨m, rest⟩ := pr
    simp only [ucsStep, hpop] at hs
    refine ⟨m, rest, rfl, ?_⟩
    by_cases hg : p.is_goal m.state = true
    · rw [if_pos hg] at hs; cases hs
    · rw [if_neg hg] at hs
      refine ⟨Bool.not_eq_true _ |>.mp hg, ?_⟩
      by_cases hm : m.state ∈ st.explored
      · rw [if_pos hm] at hs; cases hs; exact Or.inl ⟨hm, rfl⟩
      · rw [if_neg hm] at hs; cases hs; exact Or.inr ⟨hm, rfl⟩

theorem ucsStep_done (p : Problem S A) {st : UcsState S A} {r : Option (List A)}
    (hs : ucsStep p st = .done r) :
    (st.frontier = [] ∧ r = none) ∨
    (∃ m rest, popMinBy ucsKey st.frontier = some (m, rest) ∧ p.is_goal m.state = true ∧
      r = some m.actions) := by
  cases hpop : popMinBy ucsKey st.frontier with
  | none =>
    rw [ucsStep, hpop] at hs
    cases hs
    exact Or.inl ⟨(popMinBy_none_iff ucsKey _).mp hpop, rfl⟩
  | some pr =>
    obtain ⟨m, rest⟩ := pr
    simp only [ucsStep, hpop] at hs
    by_cases hg : p.is_goal m.state = true
    · rw [if_pos hg] at hs; cases hs; exact Or.inr ⟨m, rest, rfl, hg, rfl⟩
    · rw [if_neg hg] at hs
      by_cases hm : m.state ∈ st.explored
      · rw [if_pos hm] at hs; cases hs
      · rw [if_neg hm] at hs; cases hs

theorem astarStep_next (p : Problem S A) (h : S → Nat) {st st' : AStarState S A}
    (hs : astarStep p h st = .next st') :
    ∃ m rest, popMinBy astarKey st.frontier = some (m, rest) ∧ p.is_goal m.state = false ∧
      ((m.state ∈ st.explored ∧ st' = ⟨rest, st.explored, st.counter⟩) ∨
       (m.state ∉ st.explored ∧
        st' = ⟨rest ++ astarChildren p h m.cost m.actions m.state (m.state :: st.explored)
                 (p.get_actions m.state) st.counter,
               m.state :: st.explored,
               st.counter + (astarChildren p h m.cost m.actions m.state (m.state :: st.explored)
                 (p.get_actions m.state) st.counter).length⟩)) := by
  cases hpop : popMinBy astarKey st.frontier with
  | none => rw [astarStep, hpop] at hs; cases hs
  | some pr =>
    obtain ⟨m, rest⟩ := pr
    simp only [astarStep, hpop] at hs
    refine ⟨m, rest, rfl, ?_⟩
    by_cases hg : p.is_goal m.state = true
    · rw [if_pos hg] at hs; cases hs
    · rw [if_neg hg] at hs
      refine ⟨Bool.not_eq_true _ |>.mp hg, ?_⟩
      by_cases hm : m.state ∈ st.explored
      · rw [if_pos hm] at hs; cases hs; exact Or.inl ⟨hm, rfl⟩
      · rw [if_neg hm] at hs; cases hs; exact Or.inr ⟨hm, rfl⟩

theorem astarStep_done (p : Problem S A) (h : S → Nat) {st : AStarState S A}
    {r : Option (List A)} (hs : astarStep p h st = .done r) :
    (st.frontier = [] ∧ r = none) ∨
    (∃ m rest, popMinBy astarKey st.frontier = some (m, rest) ∧ p.is_goal m.state = true ∧
      r = some m.actions) := by
  cases hpop : popMinBy astarKey st.frontier with
  | none =>
    rw [astarStep, hpop] at hs
    cases hs
    exact Or.inl ⟨(popMinBy_none_iff astarKey _).mp hpop, rfl⟩
  | some pr =>
    obtain ⟨m, rest⟩ := pr
    simp only [astarStep, hpop] at hs
    by_cases hg : p.is_goal m.state = true
    · rw [if_pos hg] at hs; cases hs; exact Or.inr ⟨m, rest, rfl, hg, rfl⟩
    · rw [if_neg hg] at hs
      by_cases hm : m.state ∈ st.explored
      · rw [if_pos hm] at hs; cases hs
      · rw [if_neg hm] at hs; cases hs

theorem bestFStep_next (p : Problem S A) (h : S → Nat) {st st' : BestFState S A}
    (hs : bestFStep p h st = .next st') :
    ∃ m rest, popMinBy bestFKey st.frontier = some (m, rest) ∧ p.is_goal m.state = false ∧
      ((m.state ∈ st.explored ∧ st' = ⟨rest, st.explored, st.counter⟩) ∨
       (m.state ∉ st.explored ∧
        st' = ⟨rest ++ bestFChildren p h m.actions m.state (m.state :: st.explored)
                 (p.get_actions m.state) st.counter,
               m.state :: st.explored,
               st.counter + (bestFChildren p h m.actions m.state (m.state :: st.explored)
                 (p.get_actions m.state) st.counter).length⟩)) := by
  cases hpop : popMinBy bestFKey st.frontier with
  | none => rw [bestFStep, hpop] at hs; cases hs
  | some pr =>
    obtain ⟨m, rest⟩ := pr
    simp only [bestFStep, hpop] at hs
    refine ⟨m, rest, rfl, ?_⟩
    by_cases hg : p.is_goal m.state = true
    · rw [if_pos hg] at hs; cases hs
    · rw [if_neg hg] at hs
      refine ⟨Bool.not_eq_true _ |>.mp hg, ?_⟩
      by_cases hm : m.state ∈ st.explored
      · rw [if_pos hm] at hs; cases hs; exact Or.inl ⟨hm, rfl⟩
      · rw [if_neg hm] at hs; cases hs; exact Or.inr ⟨hm, rfl⟩

theorem bestFStep_done (p : Problem S A) (h : S → Nat) {st : BestFState S A}
    {r : Option (List A)} (hs : bestFStep p h st = .done r) :
    (st.frontier = [] ∧ r = none) ∨
    (∃ m rest, popMinBy bestFKey st.frontier = some (m, rest) ∧ p.is_goal m.state = true ∧
      r = some m.actions) := by
  cases hpop : popMinBy bestFKey st.frontier with
  | none =>
    rw [bestFStep, hpop] at hs
    cases hs
    exact Or.inl ⟨(popMinBy_none_iff bestFKey _).mp hpop, rfl⟩
  | some pr =>
    obtain ⟨m, rest⟩ := pr
    simp only [bestFStep, hpop] at hs
    by_cases hg : p.is_goal m.state = true
    · rw [if_pos hg] at hs; cases hs; exact Or.inr ⟨m, rest, rfl, hg, rfl⟩
    · rw [if_neg hg] at hs
      by_cases hm : m.state ∈ st.explored
      · rw [if_pos hm] at hs; cases hs
      · rw [if_neg hm] at hs; cases hs

theorem dfsStep_next (p : Problem S A) {st st' : FrontierState S A}
    (hs : dfsStep p st = .next st') :
    ∃ s acts rest, st.frontier = (s, acts) :: rest ∧ p.is_goal s = false ∧
      st' = ⟨dfsPush p s acts (s :: st.explored) (p.get_actions s) rest, s :: st.explored⟩ := by
  obtain ⟨front, explored⟩ := st
  cases front with
  | nil => rw [dfsStep] at hs; cases hs
  | cons e rest =>
    obtain ⟨s, acts⟩ := e
    rw [dfsStep] at hs
    by_cases hg : p.is_goal s = true
    · rw [if_pos hg] at hs; cases hs
    · rw [if_neg hg] at hs
      cases hs
      exact ⟨s, acts, rest, rfl, Bool.not_eq_true _ |>.mp hg, rfl⟩

theorem dfsStep_done (p : Problem S A) {st : FrontierState S A} {r : Option (List A)}
    (hs : dfsStep p st = .done r) :
    (st.frontier = [] ∧ r = none) ∨
    (∃ s acts rest, st.frontier = (s, acts) :: rest ∧ p.is_goal s = true ∧ r = some acts) := by
  obtain ⟨front, explored⟩ := st
  cases front with
  | nil => rw [dfsStep] at hs; cases hs; exact Or.inl ⟨rfl, rfl⟩
  | cons e rest =>
    obtain ⟨s, acts⟩ := e
    rw [dfsStep] at hs
    by_cases hg : p.is_goal s = true
    · rw [if_pos hg] at hs; cases hs; exact Or.inr ⟨s, acts, rest, rfl, hg, rfl⟩
    · rw [if_neg hg] at hs; cases hs

theorem bfsStep_next (p : Problem S A) {st st' : FrontierState S A}
    (hs : bfsStep p st = .next st') :
    ∃ s acts rest added exp', st.frontier = (s, acts) :: rest ∧
      bfsExpand p s acts (p.get_actions s) st.explored = .inr (added, exp') ∧
      st' = ⟨rest ++ added, exp'⟩ := by
  obtain ⟨front, explored⟩ := st
  cases front with
  | nil => rw [bfsStep] at hs; cases hs
  | cons e rest =>
    obtain ⟨s, acts⟩ := e
    cases hexp : bfsExpand p s acts (p.get_actions s) explored with
    | inl sol =>
      simp only [bfsStep, hexp] at hs
      cases hs
    | inr pr =>
      obtain ⟨added, exp'⟩ := pr
      simp only [bfsStep, hexp] at hs
      cases hs
      exact ⟨s, acts, rest, added, exp', rfl, hexp, rfl⟩

theorem bfsStep_done (p : Problem S A) {st : FrontierState S A} {r : Option (List A)}
    (hs : bfsStep p st = .done r) :
    (st.frontier = [] ∧ r = none) ∨
    (∃ s acts rest sol, st.frontier = (s, acts) :: rest ∧
      bfsExpand p s acts (p.get_actions s) st.explored = .inl sol ∧ r = some sol) := by
  obtain ⟨front, explored⟩ := st
  cases front with
  | nil => rw [bfsStep] at hs; cases hs; exact Or.inl ⟨rfl, rfl⟩
  | cons e rest =>
    obtain ⟨s, acts⟩ := e
    cases hexp : bfsExpand p s acts (p.get_actions s) explored with
    | inl sol =>
      simp only [bfsStep, hexp] at hs
      cases hs
      exact Or.inr ⟨s, acts, rest, sol, rfl, hexp, rfl⟩
    | inr pr =>
      obtain ⟨added, exp'⟩ := pr
      simp only [bfsStep, hexp] at hs
      cases hs

theorem bfsExpand_inr_spec (p : Problem S A) (s : S) (acts : List A) :
    ∀ (l : List A) (explored : List S) (added : List (S × List A)) (exp' : List S),
      bfsExpand p s acts l explored = .inr (added, exp') →
      exp' = (added.map Prod.fst).reverse ++ explored ∧
      (∀ e ∈ added, ∃ b ∈ l, e.1 = p.get_successor s b ∧ e.2 = acts ++ [b] ∧
        p.is_goal e.1 = false ∧ e.1 ∉ explored) ∧
      (∀ b ∈ l, p.get_successor s b ∈ exp') ∧
      (explored.Nodup → exp'.Nodup) := by
  intro l
  induction l with
  | nil =>
    intro explored added exp' h
    rw [bfsExpand] at h
    cases h
    refine ⟨by simp, by simp, by simp, fun hn => hn⟩
  | cons a more ih =>
    intro explored added exp' h
    rw [bfsExpand] at h
    by_cases hmem : p.get_successor s a ∈ explored
    · rw [if_pos hmem] at h
      obtain ⟨h1, h2, h3, h4⟩ := ih explored added exp' h
      refine ⟨h1, ?_, ?_, h4⟩
      · intro e he
        obtain ⟨b, hb, hrest⟩ := h2 e he
        exact ⟨b, List.mem_cons_of_mem a hb, hrest⟩
      · intro b hb
        rcases List.mem_cons.mp hb with rfl | hbm
        · have : explored ⊆ exp' := by rw [h1]; exact fun x hx => List.mem_append_right _ hx
          exact this hmem
        · exact h3 b hbm
    · rw [if_neg hmem] at h
      by_cases hg : p.is_goal (p.get_successor s a) = true
      · rw [if_pos hg] at h
        cases h
      · rw [if_neg hg] at h
        cases hrec : bfsExpand p s acts more (p.get_successor s a :: explored) with
        | inl sol => rw [hrec] at h; cases h
        | inr pr =>
          obtain ⟨added', exp₁⟩ := pr
          rw [hrec] at h
          obtain ⟨h1, h2, h3, h4⟩ := ih (p.get_successor s a :: explored) added' exp₁ hrec
          cases h
          refine ⟨?_, ?_, ?_, ?_⟩
          · rw [h1]
            simp [List.append_assoc]
          · intro e he
            rcases List.mem_cons.mp he with rfl | hem
            · exact ⟨a, List.mem_cons_self a more, rfl, rfl,
                Bool.not_eq_true _ |>.mp hg, hmem⟩
            · obtain ⟨b, hb, he1, he2, he3, he4⟩ := h2 e hem
              refine ⟨b, List.mem_cons_of_mem a hb, he1, he2, he3, fun hc => he4 ?_⟩
              exact List.mem_cons_of_mem _ hc
          · intro b hb
            rcases List.mem_cons.mp hb with rfl | hbm
            · have : (p.get_successor s b :: explored) ⊆ exp' := by
                rw [h1]; exact fun x hx => List.mem_append_right _ hx
              exact this (List.mem_cons_self _ _)
            · exact h3 b hbm
          · intro hn
            exact h4 (List.nodup_cons.mpr ⟨hmem, hn⟩)

theorem bfsExpand_inl_spec (p : Problem S A) (s : S) (acts : List A) :
    ∀ (l : List A) (explored : List S) (sol : List A),
      bfsExpand p s acts l explored = .inl sol →
      ∃ b ∈ l, sol = acts ++ [b] ∧ p.is_goal (p.get_successor s b) = true ∧
        p.get_successor s b ∉ explored := by
  intro l
  induction l with
  | nil => intro explored sol h; rw [bfsExpand] at h; cases h
  | cons a more ih =>
    intro explored sol h
    rw [bfsExpand] at h
    by_cases hmem : p.get_successor s a ∈ explored
    · rw [if_pos hmem] at h
      obtain ⟨b, hb, hrest⟩ := ih explored sol h
      exact ⟨b, List.mem_cons_of_mem a hb, hrest⟩
    · rw [if_neg hmem] at h
      by_cases hg : p.is_goal (p.get_successor s a) = true
      · rw [if_pos hg] at h
        cases h
        exact ⟨a, List.mem_cons_self a more, rfl, hg, hmem⟩
      · rw [if_neg hg] at h
        cases hrec : bfsExpand p s acts more (p.get_successor s a :: explored) with
        | inl sol' =>
          rw [hrec] at h
          cases h
          obtain ⟨b, hb, h1, h2, h3⟩ := ih (p.get_successor s a :: explored) sol hrec
          refine ⟨b, List.mem_cons_of_mem a hb, h1, h2, fun hc => h3 ?_⟩
          exact List.mem_cons_of_mem _ hc
        | inr pr =>
          obtain ⟨added', exp₁⟩ := pr
          rw [hrec] at h
          cases h

theorem bfsExpands_some {st : FrontierState S A} {x : S}
    (hx : bfsExpands st = some x) : ∃ acts rest, st.frontier = (x, acts) :: rest := by
  obtain ⟨front, explored⟩ := st
  cases front with
  | nil => rw [bfsExpands] at hx; cases hx
  | cons e rest =>
    obtain ⟨s, acts⟩ := e
    rw [bfsExpands] at hx
    cases hx
    exact ⟨acts, rest, rfl⟩

theorem expandTrace_spec {St R T : Type} (step : St → StepResult R St) (exps : St → Option T)
    (Inv : St → Prop) (mk : St → T → Prop)
    (hInv : ∀ st st', Inv st → step st = .next st' → Inv st')
    (hmono : ∀ st st' x, Inv st → step st = .next st' → mk st x → mk st' x)
    (hb1 : ∀ st x, Inv st → exps st = some x → ¬ mk st x)
    (hb2 : ∀ st st' x, Inv st → exps st = some x → step st = .next st' → mk st' x) :
    ∀ n st, Inv st →
      (expandTrace step exps n st).Nodup ∧ ∀ x ∈ expandTrace step exps n st, ¬ mk st x := by
  intro n
  induction n with
  | zero => intro st _; simp [expandTrace]
  | succ k ih =>
    intro st hI
    rw [expandTrace]
    cases hs : step st with
    | done r =>
      simp only [hs, List.append_nil]
      cases he : exps st with
      | none => simp [Option.toList]
      | some x =>
        simp only [Option.toList]
        refine ⟨List.nodup_singleton x, ?_⟩
        intro y hy
        rcases List.mem_singleton.mp hy with rfl
        exact hb1 st y hI he
    | next st' =>
      simp only [hs]
      have hI' := hInv st st' hI hs
      obtain ⟨ihn, ihp⟩ := ih st' hI'
      cases he : exps st with
      | none =>
        simp only [Option.toList, List.nil_append]
        exact ⟨ihn, fun x hx hmk => ihp x hx (hmono st st' x hI hs hmk)⟩
      | some x =>
        simp only [Option.toList, List.singleton_append]
        constructor
        · exact List.nodup_cons.mpr ⟨fun hx => ihp x hx (hb2 st st' x hI he hs), ihn⟩
        · intro y hy
          rcases List.mem_cons.mp hy with rfl | hym
          · exact hb1 st y hI he
          · exact fun hmk => ihp y hym (hmono st st' y hI hs hmk)

theorem ucsExpands_some (p : Problem S A) {st : UcsState S A} {x : S}
    (hx : ucsExpands p st = some x) :
    ∃ m rest, popMinBy ucsKey st.frontier = some (m, rest) ∧ p.is_goal m.state = false ∧
      m.state ∉ st.explored ∧ m.state = x := by
  cases hpop : popMinBy ucsKey st.frontier with
  | none => rw [ucsExpands, hpop] at hx; cases hx
  | some pr =>
    obtain ⟨m, rest⟩ := pr
    simp only [ucsExpands, hpop] at hx
    by_cases hg : p.is_goal m.state = true
    · rw [if_pos hg] at hx; cases hx
    · rw [if_neg hg] at hx
      by_cases hm : m.state ∈ st.explored
      · rw [if_pos hm] at hx; cases hx
      · rw [if_neg hm] at hx
        cases hx
        exact ⟨m, rest, rfl, Bool.not_eq_true _ |>.mp hg, hm, rfl⟩

theorem astarExpands_some (p : Problem S A) {st : AStarState S A} {x : S}
    (hx : astarExpands p st = some x) :
    ∃ m rest, popMinBy astarKey st.frontier = some (m, rest) ∧ p.is_goal m.state = false ∧
      m.state ∉ st.explored ∧ m.state = x := by
  cases hpop : popMinBy astarKey st.frontier with
  | none => rw [astarExpands, hpop] at hx; cases hx
  | some pr =>
    obtain ⟨m, rest⟩ := pr
    simp only [astarExpands, hpop] at hx
    by_cases hg : p.is_goal m.state = true
    · rw [if_pos hg] at hx; cases hx
    · rw [if_neg hg] at hx
      by_cases hm : m.state ∈ st.explored
      · rw [if_pos hm] at hx; cases hx
      · rw [if_neg hm] at hx
        cases hx
        exact ⟨m, rest, rfl, Bool.not_eq_true _ |>.mp hg, hm, rfl⟩

theorem bestFExpands_some (p : Problem S A) {st : BestFState S A} {x : S}
    (hx : bestFExpands p st = some x) :
    ∃ m rest, popMinBy bestFKey st.frontier = some (m, rest) ∧ p.is_goal m.state = false ∧
      m.state ∉ st.explored ∧ m.state = x := by
  cases hpop : popMinBy bestFKey st.frontier with
  | none => rw [bestFExpands, hpop] at hx; cases hx
  | some pr =>
    obtain ⟨m, rest⟩ := pr
    simp only [bestFExpands, hpop] at hx
    by_cases hg : p.is_goal m.state = true
    · rw [if_pos hg] at hx; cases hx
    · rw [if_neg hg] at hx
      by_cases hm : m.state ∈ st.explored
      · rw [if_pos hm] at hx; cases hx
      · rw [if_neg hm] at hx
        cases hx
        exact ⟨m, rest, rfl, Bool.not_eq_true _ |>.mp hg, hm, rfl⟩

theorem ucsStep_explored_mono (p : Problem S A) {st st' : UcsState S A}
    (hs : ucsStep p st = .next st') : ∀ x ∈ st.explored, x ∈ st'.explored := by
  obtain ⟨m, rest, hpop, hg, hcase⟩ := ucsStep_next p hs
  rcases hcase with ⟨hm, rfl⟩ | ⟨hm, rfl⟩
  · exact fun x hx => hx
  · exact fun x hx => List.mem_cons_of_mem _ hx

theorem astarStep_explored_mono (p : Problem S A) (h : S → Nat) {st st' : AStarState S A}
    (hs : astarStep p h st = .next st') : ∀ x ∈ st.explored, x ∈ st'.explored := by
  obtain ⟨m, rest, hpop, hg, hcase⟩ := astarStep_next p h hs
  rcases hcase with ⟨hm, rfl⟩ | ⟨hm, rfl⟩
  · exact fun x hx => hx
  · exact fun x hx => List.mem_cons_of_mem _ hx

theorem bestFStep_explored_mono (p : Problem S A) (h : S → Nat) {st st' : BestFState S A}
    (hs : bestFStep p h st = .next st') : ∀ x ∈ st.explored, x ∈ st'.explored := by
  obtain ⟨m, rest, hpop, hg, hcase⟩ := bestFStep_next p h hs
  rcases hcase with ⟨hm, rfl⟩ | ⟨hm, rfl⟩
  · exact fun x hx => hx
  · exact fun x hx => List.mem_cons_of_mem _ hx

theorem bfsBaseInv_step (p : Problem S A) {st st' : FrontierState S A}
    (hI : bfsBaseInv st) (hs : bfsStep p st = .next st') : bfsBaseInv st' := by
  obtain ⟨hnd, hsub, hexnd⟩ := hI
  obtain ⟨s, acts, rest, added, exp', hfr, hexp, rfl⟩ := bfsStep_next p hs
  obtain ⟨h1, h2, h3, h4⟩ := bfsExpand_inr_spec p s acts _ _ _ _ hexp
  rw [hfr] at hnd hsub
  simp only [List.map_cons, List.nodup_cons] at hnd
  have haddedmap : (added.map Prod.fst).Nodup := by
    have : exp'.Nodup := h4 hexnd
    rw [h1] at this
    exact List.nodup_reverse.mp (this.of_append_left)
  have hexpsub : st.explored ⊆ exp' := by
    rw [h1]; exact fun x hx => List.mem_append_right _ hx
  have haddedsub : ∀ x ∈ added.map Prod.fst, x ∈ exp' := by
    intro x hx
    rw [h1]
    exact List.mem_append_left _ (List.mem_reverse.mpr hx)
  refine ⟨?_, ?_, h4 hexnd⟩
  · dsimp only
    rw [List.map_append, List.nodup_append]
    refine ⟨hnd.2, haddedmap, ?_⟩
    intro x hx hx'
    obtain ⟨e, he, rfl⟩ := List.mem_map.mp hx'
    obtain ⟨b, hb, he1, he2, he3, he4⟩ := h2 e he
    exact he4 (hsub _ (List.mem_cons_of_mem _ hx))
  · dsimp only
    intro x hx
    rw [List.map_append] at hx
    rcases List.mem_append.mp hx with hr | ha
    · exact hexpsub (hsub _ (List.mem_cons_of_mem _ hr))
    · exact haddedsub x ha

/-- Claim C5: along any run of BreadthFirstSearch, UniformCostSearch,
BestFirstSearch and AStarSearch from their initial search states, the list
of states whose successors are generated (one entry per expansion) is
duplicate-free: no state is expanded twice. -/
theorem claimC5 (p : Problem S A) (h : S → Nat) (init : S) (n : Nat) :
    (expandTrace (bfsStep p) bfsExpands n ⟨[(init, [])], [init]⟩).Nodup ∧
    (expandTrace (ucsStep p) (ucsExpands p) n ⟨[⟨0, 0, init, []⟩], [], 1⟩).Nodup ∧
    (expandTrace (bestFStep p h) (bestFExpands p) n ⟨[⟨h init, 0, init, []⟩], [], 1⟩).Nodup ∧
    (expandTrace (astarStep p h) (astarExpands p) n
      ⟨[⟨h init, 0, 0, init, []⟩], [], 1⟩).Nodup := by
  refine ⟨?_, ?_, ?_, ?_⟩
  · refine (expandTrace_spec (bfsStep p) bfsExpands bfsBaseInv
      (fun st x => x ∈ st.explored ∧ x ∉ st.frontier.map Prod.fst)
      (fun st st' hI hs => bfsBaseInv_step p hI hs) ?_ ?_ ?_ n _ ?_).1
    · intro st st' x hI hs hmk
      obtain ⟨s, acts, rest, added, exp', hfr, hexp, rfl⟩ := bfsStep_next p hs
      obtain ⟨h1, h2, h3, h4⟩ := bfsExpand_inr_spec p s acts _ _ _ _ hexp
      refine ⟨by rw [h1]; exact List.mem_append_right _ hmk.1, ?_⟩
      dsimp only
      rw [List.map_append]
      intro hx
      rcases List.mem_append.mp hx with hr | ha
      · exact hmk.2 (by rw [hfr]; exact List.mem_cons_of_mem _ hr)
      · obtain ⟨e, he, rfl⟩ := List.mem_map.mp ha
        obtain ⟨b, hb, he1, he2, he3, he4⟩ := h2 e he
        exact he4 hmk.1
    · intro st x hI hx
      obtain ⟨front, explored⟩ := st
      cases front with
      | nil => rw [bfsExpands] at hx; cases hx
      | cons e rest =>
        obtain ⟨s, acts⟩ := e
        rw [bfsExpands] at hx
        cases hx
        intro hmk
        exact hmk.2 (by simp)
    · intro st st' x hI hx hs
      obtain ⟨s, acts, rest, added, exp', hfr, hexp, rfl⟩ := bfsStep_next p hs
      obtain ⟨h1, h2, h3, h4⟩ := bfsExpand_inr_spec p s acts _ _ _ _ hexp
      obtain ⟨acts₀, rest₀, hfr₀⟩ := bfsExpands_some hx
      rw [hfr] at hfr₀
      injection hfr₀ with hpair hrest
      injection hpair with hx1 hx2
      subst hx1
      have hxexp : s ∈ st.explored := hI.2.1 s (by rw [hfr]; simp)
      refine ⟨by rw [h1]; exact List.mem_append_right _ hxexp, ?_⟩
      dsimp only
      rw [List.map_append]
      intro hc
      rcases List.mem_append.mp hc with hr | ha
      · have := hI.1
        rw [hfr] at this
        simp only [List.map_cons, List.nodup_cons] at this
        exact this.1 hr
      · obtain ⟨e, he, rfl⟩ := List.mem_map.mp ha
        obtain ⟨b, hb, he1, he2, he3, he4⟩ := h2 e he
        exact he4 hxexp
    · exact ⟨by simp, by simp, by simp⟩
  · refine (expandTrace_spec (ucsStep p) (ucsExpands p) (fun _ => True)
      (fun st x => x ∈ st.explored) (fun _ _ _ _ => trivial) ?_ ?_ ?_ n _ trivial).1
    · intro st st' x _ hs hmk
      exact ucsStep_explored_mono p hs x hmk
    · intro st x _ hx
      obtain ⟨m, rest, hpop, hg, hm, rfl⟩ := ucsExpands_some p hx
      exact hm
    · intro st st' x _ hx hs
      obtain ⟨m, rest, hpop, hg, hm, rfl⟩ := ucsExpands_some p hx
      obtain ⟨m', rest', hpop', hg', hcase⟩ := ucsStep_next p hs
      rw [hpop] at hpop'
      cases hpop'
      rcases hcase with ⟨hm', rfl⟩ | ⟨hm', rfl⟩
      · exact absurd hm' hm
      · exact List.mem_cons_self _ _
  · refine (expandTrace_spec (bestFStep p h) (bestFExpands p) (fun _ => True)
      (fun st x => x ∈ st.explored) (fun _ _ _ _ => trivial) ?_ ?_ ?_ n _ trivial).1
    · intro st st' x _ hs hmk
      exact bestFStep_explored_mono p h hs x hmk
    · intro st x _ hx
      obtain ⟨m, rest, hpop, hg, hm, rfl⟩ := bestFExpands_some p hx
      exact hm
    · intro st st' x _ hx hs
      obtain ⟨m, rest, hpop, hg, hm, rfl⟩ := bestFExpands_some p hx
      obtain ⟨m', rest', hpop', hg', hcase⟩ := bestFStep_next p h hs
      rw [hpop] at hpop'
      cases hpop'
      rcases hcase with ⟨hm', rfl⟩ | ⟨hm', rfl⟩
      · exact absurd hm' hm
      · exact List.mem_cons_self _ _
  · refine (expandTrace_spec (astarStep p h) (astarExpands p) (fun _ => True)
      (fun st x => x ∈ st.explored) (fun _ _ _ _ => trivial) ?_ ?_ ?_ n _ trivial).1
    · intro st st' x _ hs hmk
      exact astarStep_explored_mono p h hs x hmk
    · intro st x _ hx
      obtain ⟨m, rest, hpop, hg, hm, rfl⟩ := astarExpands_some p hx
      exact hm
    · intro st st' x _ hx hs
      obtain ⟨m, rest, hpop, hg, hm, rfl⟩ := astarExpands_some p hx
      obtain ⟨m', rest', hpop', hg', hcase⟩ := astarStep_next p h hs
      rw [hpop] at hpop'
      cases hpop'
      rcases hcase with ⟨hm', rfl⟩ | ⟨hm', rfl⟩
      · exact absurd hm' hm
      · exact List.mem_cons_self _ _

theorem ucsChildren_mem (p : Problem S A) (cost : Nat) (acts : List A) (s : S) :
    ∀ (l : List A) (c : Nat), ∀ b ∈ l, ∃ e ∈ ucsChildren p cost acts s l c,
      e.state = p.get_successor s b ∧ e.cost = cost + p.get_cost s b ∧
      e.actions = acts ++ [b] := by
  intro l
  induction l with
  | nil => intro c b hb; cases hb
  | cons a more ih =>
    intro c b hb
    rw [ucsChildren]
    rcases List.mem_cons.mp hb with rfl | hbm
    · exact ⟨_, List.mem_cons_self _ _, rfl, rfl, rfl⟩
    · obtain ⟨e, he, hrest⟩ := ih (c + 1) b hbm
      exact ⟨e, List.mem_cons_of_mem _ he, hrest⟩

theorem astarChildren_not_explored (p : Problem S A) (h : S → Nat) (cost : Nat)
    (acts : List A) (s : S) (ex : List S) :
    ∀ (l : List A) (c : Nat), ∀ e ∈ astarChildren p h cost acts s ex l c, e.state ∉ ex := by
  intro l
  induction l with
  | nil => intro c e he; simp [astarChildren] at he
  | cons a more ih =>
    intro c e he
    rw [astarChildren] at he
    by_cases hx : p.get_successor s a ∈ ex
    · rw [if_pos hx] at he
      exact ih c e he
    · rw [if_neg hx] at he
      rcases List.mem_cons.mp he with rfl | hem
      · exact hx
      · exact ih (c + 1) e hem

theorem astarChildren_mem (p : Problem S A) (h : S → Nat) (cost : Nat)
    (acts : List A) (s : S) (ex : List S) :
    ∀ (l : List A) (c : Nat), ∀ b ∈ l, p.get_successor s b ∉ ex →
      ∃ e ∈ astarChildren p h cost acts s ex l c,
        e.state = p.get_successor s b ∧ e.cost = cost + p.get_cost s b ∧
        e.f = cost + p.get_cost s b + h (p.get_successor s b) ∧
        e.actions = acts ++ [b] := by
  intro l
  induction l with
  | nil => intro c b hb; cases hb
  | cons a more ih =>
    intro c b hb hbex
    rw [astarChildren]
    rcases List.mem_cons.mp hb with rfl | hbm
    · rw [if_neg hbex]
      exact ⟨_, List.mem_cons_self _ _, rfl, rfl, rfl, rfl⟩
    · by_cases hx : p.get_successor s a ∈ ex
      · rw [if_pos hx]
        exact ih c b hbm hbex
      · rw [if_neg hx]
        obtain ⟨e, he, hrest⟩ := ih (c + 1) b hbm hbex
        exact ⟨e, List.mem_cons_of_mem _ he, hrest⟩

theorem bestFChildren_not_explored (p : Problem S A) (h : S → Nat)
    (acts : List A) (s : S) (ex : List S) :
    ∀ (l : List A) (c : Nat), ∀ e ∈ bestFChildren p h acts s ex l c, e.state ∉ ex := by
  intro l
  induction l with
  | nil => intro c e he; simp [bestFChildren] at he
  | cons a more ih =>
    intro c e he
    rw [bestFChildren] at he
    by_cases hx : p.get_successor s a ∈ ex
    · rw [if_pos hx] at he
      exact ih c e he
    · rw [if_neg hx] at he
      rcases List.mem_cons.mp he with rfl | hem
      · exact hx
      · exact ih (c + 1) e hem

theorem bestFChildren_mem (p : Problem S A) (h : S → Nat)
    (acts : List A) (s : S) (ex : List S) :
    ∀ (l : List A) (c : Nat), ∀ b ∈ l, p.get_successor s b ∉ ex →
      ∃ e ∈ bestFChildren p h acts s ex l c,
        e.state = p.get_successor s b ∧ e.hval = h (p.get_successor s b) ∧
        e.actions = acts ++ [b] := by
  intro l
  induction l with
  | nil => intro c b hb; cases hb
  | cons a more ih =>
    intro c b hb hbex
    rw [bestFChildren]
    rcases List.mem_cons.mp hb with rfl | hbm
    · rw [if_neg hbex]
      exact ⟨_, List.mem_cons_self _ _, rfl, rfl, rfl⟩
    · by_cases hx : p.get_successor s a ∈ ex
      · rw [if_pos hx]
        exact ih c b hbm hbex
      · rw [if_neg hx]
        obtain ⟨e, he, hrest⟩ := ih (c + 1) b hbm hbex
        exact ⟨e, List.mem_cons_of_mem _ he, hrest⟩

theorem dfsPush_spec (p : Problem S A) (s : S) (acts : List A) :
    ∀ (l : List A) (ex : List S) (front : List (S × List A)),
      ∃ news : List (S × List A),
        dfsPush p s acts ex l front = news ++ front ∧
        (∀ e ∈ news, (∃ b ∈ l, e = (p.get_successor s b, acts ++ [b])) ∧
          e.1 ∉ ex ∧ e.1 ∉ front.map Prod.fst) ∧
        (news.map Prod.fst).Nodup ∧
        news.length ≤ l.length := by
  intro l
  induction l with
  | nil =>
    intro ex front
    exact ⟨[], rfl, by simp, by simp, by simp⟩
  | cons a more ih =>
    intro ex front
    rw [dfsPush]
    by_cases hc : p.get_successor s a ∈ ex ∨ p.get_successor s a ∈ front.map Prod.fst
    · rw [if_pos hc]
      obtain ⟨news, h1, h2, h3, h4⟩ := ih ex front
      refine ⟨news, h1, ?_, h3, by simpa using Nat.le_succ_of_le h4⟩
      intro e he
      obtain ⟨⟨b, hb, hbe⟩, hex, hfr⟩ := h2 e he
      exact ⟨⟨b, List.mem_cons_of_mem _ hb, hbe⟩, hex, hfr⟩
    · rw [if_neg hc]
      push_neg at hc
      obtain ⟨hex, hfr⟩ := hc
      obtain ⟨news', h1, h2, h3, h4⟩ := ih ex ((p.get_successor s a, acts ++ [a]) :: front)
      refine ⟨news' ++ [(p.get_successor s a, acts ++ [a])], by
        rw [h1]; simp, ?_, ?_, ?_⟩
      · intro e he
        rcases List.mem_append.mp he with hn | hone
        · obtain ⟨⟨b, hb, hbe⟩, hex', hfr'⟩ := h2 e hn
          simp only [List.map_cons, List.mem_cons, not_or] at hfr'
          exact ⟨⟨b, List.mem_cons_of_mem _ hb, hbe⟩, hex', hfr'.2⟩
        · rcases List.mem_singleton.mp hone with rfl
          exact ⟨⟨a, List.mem_cons_self _ _, rfl⟩, hex, hfr⟩
      · rw [List.map_append, List.nodup_append]
        refine ⟨h3, by simp, ?_⟩
        intro x hx hx'
        obtain ⟨e, he, rfl⟩ := List.mem_map.mp hx
        obtain ⟨_, _, hfr'⟩ := h2 e he
        simp only [List.map_cons, List.mem_cons, not_or] at hfr'
        simp only [List.map_cons, List.map_nil, List.mem_singleton] at hx'
        exact hfr'.1 hx'
      · simp only [List.length_append, List.length_cons, List.length_nil]
        omega

theorem dfsBaseInv_step (p : Problem S A) {st st' : FrontierState S A}
    (hI : dfsBaseInv st) (hs : dfsStep p st = .next st') : dfsBaseInv st' := by
  obtain ⟨hnd, hdisj⟩ := hI
  obtain ⟨s, acts, rest, hfr, hg, rfl⟩ := dfsStep_next p hs
  obtain ⟨news, h1, h2, h3, h4⟩ := dfsPush_spec p s acts (p.get_actions s) (s :: st.explored) rest
  rw [hfr] at hnd hdisj
  simp only [List.map_cons, List.nodup_cons] at hnd
  constructor
  · dsimp only
    rw [h1, List.map_append, List.nodup_append]
    refine ⟨h3, hnd.2, ?_⟩
    intro x hx hx'
    obtain ⟨e, he, rfl⟩ := List.mem_map.mp hx
    exact (h2 e he).2.2 hx'
  · dsimp only
    intro x hx
    rw [h1, List.map_append] at hx
    rcases List.mem_append.mp hx with hn | hr
    · obtain ⟨e, he, rfl⟩ := List.mem_map.mp hn
      exact (h2 e he).2.1
    · intro hc
      rcases List.mem_cons.mp hc with rfl | hcm
      · exact hnd.1 hr
      · exact hdisj x (List.mem_cons_of_mem _ hr) hcm

theorem dfs_head_not_explored (p : Problem S A) (init : S) :
    ∀ n st, stepN (dfsStep p) n ⟨[(init, [])], []⟩ = some st →
      ∀ s acts rest, st.frontier = (s, acts) :: rest → s ∉ st.explored := by
  intro n st hst s acts rest hfr
  have hI : dfsBaseInv st := by
    refine stepN_inv (dfsStep p) dfsBaseInv (fun st₁ st₂ h1 h2 => dfsBaseInv_step p h1 h2)
      n _ st ?_ hst
    exact ⟨by simp, by simp⟩
  exact hI.2 s (by rw [hfr]; simp)

/-- Counterexample to claim C7 as stated: running AStarSearch (zero
heuristic) on `loopBackProb`, the iteration that expands state 1
generates the successor 0 through the second action, but 0 is already
explored and no frontier entry for it is pushed — after two iterations
the frontier holds exactly one entry, whose state is 2, although the
claim requires every generated successor to be pushed regardless of the
explored set. -/
theorem claimC7_cex :
    stepN (astarStep loopBackProb (fun _ => 0)) 2 ⟨[⟨0, 0, 0, 0, []⟩], [], 1⟩ =
      some ⟨[⟨2, 2, 2, 2, [0, 0]⟩], [1, 0], 3⟩ ∧
    (1 : Fin 2) ∈ loopBackProb.get_actions 1 ∧
    loopBackProb.get_successor 1 1 = 0 ∧
    (0 : Fin 3) ∈ ([1, 0] : List (Fin 3)) ∧
    List.map AStarEntry.state [(⟨2, 2, 2, 2, [0, 0]⟩ : AStarEntry (Fin 3) (Fin 2))] = [2] ∧
    (2 : Fin 3) ≠ 0 := by
  exact ⟨rfl, by decide, by decide, by decide, by decide, by decide⟩

/-- Claim C7, amended: the popped-node explored check and discard hold
for UniformCostSearch, AStarSearch and BestFirstSearch, and
UniformCostSearch pushes an entry for every generated successor; but
AStarSearch and BestFirstSearch skip successors already in the explored
set at generation time, DepthFirstSearch skips successors that are
explored or already pending in the frontier at generation time, and a
DepthFirstSearch pop is never of an explored state, so its pop-time
discard never fires. -/
theorem claimC7 :
    (∀ (p : Problem S A) (st : UcsState S A) m rest,
      popMinBy ucsKey st.frontier = some (m, rest) → p.is_goal m.state = false →
      m.state ∈ st.explored → ucsStep p st = .next ⟨rest, st.explored, st.counter⟩) ∧
    (∀ (p : Problem S A) (cost : Nat) (acts : List A) (s : S) (l : List A) (c : Nat),
      ∀ b ∈ l, ∃ e ∈ ucsChildren p cost acts s l c, e.state = p.get_successor s b) ∧
    (∀ (p : Problem S A) (h : S → Nat) (st : AStarState S A) m rest,
      popMinBy astarKey st.frontier = some (m, rest) → p.is_goal m.state = false →
      m.state ∈ st.explored → astarStep p h st = .next ⟨rest, st.explored, st.counter⟩) ∧
    (∀ (p : Problem S A) (h : S → Nat) (cost : Nat) (acts : List A) (s : S)
      (ex : List S) (l : List A) (c : Nat),
      ∀ e ∈ astarChildren p h cost acts s ex l c, e.state ∉ ex) ∧
    (∀ (p : Problem S A) (h : S → Nat) (st : BestFState S A) m rest,
      popMinBy bestFKey st.frontier = some (m, rest) → p.is_goal m.state = false →
      m.state ∈ st.explored → bestFStep p h st = .next ⟨rest, st.explored, st.counter⟩) ∧
    (∀ (p : Problem S A) (h : S → Nat) (acts : List A) (s : S)
      (ex : List S) (l : List A) (c : Nat),
      ∀ e ∈ bestFChildren p h acts s ex l c, e.state ∉ ex) ∧
    (∀ (p : Problem S A) (s : S) (acts : List A) (ex : List S) (l : List A)
      (front : List (S × List A)),
      ∀ e ∈ dfsPush p s acts ex l front,
        e ∈ front ∨ (e.1 ∉ ex ∧ e.1 ∉ front.map Prod.fst)) ∧
    (∀ (p : Problem S A) (init : S) (n : Nat) (st : FrontierState S A),
      stepN (dfsStep p) n ⟨[(init, [])], []⟩ = some st →
      ∀ s acts rest, st.frontier = (s, acts) :: rest → s ∉ st.explored) := by
  refine ⟨?_, ?_, ?_, ?_, ?_, ?_, ?_, ?_⟩
  · intro p st m rest hpop hg hm
    simp only [ucsStep, hpop]
    rw [if_neg (by rw [hg]; exact Bool.false_ne_true), if_pos hm]
  · intro p cost acts s l c b hb
    obtain ⟨e, he, h1, _⟩ := ucsChildren_mem p cost acts s l c b hb
    exact ⟨e, he, h1⟩
  · intro p h st m rest hpop hg hm
    simp only [astarStep, hpop]
    rw [if_neg (by rw [hg]; exact Bool.false_ne_true), if_pos hm]
  · intro p h cost acts s ex l c e he
    exact astarChildren_not_explored p h cost acts s ex l c e he
  · intro p h st m rest hpop hg hm
    simp only [bestFStep, hpop]
    rw [if_neg (by rw [hg]; exact Bool.false_ne_true), if_pos hm]
  · intro p h acts s ex l c e he
    exact bestFChildren_not_explored p h acts s ex l c e he
  · intro p s acts ex l front e he
    obtain ⟨news, h1, h2, h3, h4⟩ := dfsPush_spec p s acts l ex front
    rw [h1] at he
    rcases List.mem_append.mp he with hn | hf
    · exact Or.inr ⟨(h2 e hn).2.1, (h2 e hn).2.2⟩
    · exact Or.inl hf
  · intro p init n st hst s acts rest hfr
    exact dfs_head_not_explored p init n st hst s acts rest hfr

/-- Witness for the amended C7 on a concrete discard: popping the
explored state 1 in UniformCostSearch on the chain problem removes the
node and changes nothing else. -/
theorem claimC7_witness :
    ucsStep chainProb ⟨[⟨5, 0, 1, [0]⟩], [1], 7⟩ =
      .next ⟨[], [1], 7⟩ :=
  claimC7.1 chainProb ⟨[⟨5, 0, 1, [0]⟩], [1], 7⟩ ⟨5, 0, 1, [0]⟩ [] rfl (by decide) (by decide)

theorem head?_reverse_eq_getLast? {α : Type} (l : List α) :
    l.reverse.head? = l.getLast? := by
  induction l with
  | nil => rfl
  | cons a t ih =>
    rw [List.reverse_cons]
    cases t with
    | nil => simp
    | cons b t' =>
      rw [List.getLast?_cons_cons, ← ih, List.head?_append_of_ne_nil _ (by simp)]

theorem getLast?_map_eq {α β : Type} (f : α → β) (l : List α) :
    (l.map f).getLast? = Option.map f l.getLast? := by
  induction l with
  | nil => rfl
  | cons a t ih =>
    cases t with
    | nil => rfl
    | cons b t' =>
      rw [List.map_cons, List.map_cons, List.getLast?_cons_cons, List.getLast?_cons_cons,
        ← List.map_cons]
      exact ih

theorem dfsPush_eq_pushedActs (p : Problem S A) (s : S) (acts : List A) :
    ∀ (l : List A) (ex : List S) (front : List (S × List A)),
      dfsPush p s acts ex l front =
        ((dfsPushedActs p ex s l (front.map Prod.fst)).map (dfsChildEntry p s acts)).reverse
          ++ front := by
  intro l
  induction l with
  | nil => intro ex front; simp [dfsPush, dfsPushedActs]
  | cons a more ih =>
    intro ex front
    rw [dfsPush, dfsPushedActs]
    by_cases hc : p.get_successor s a ∈ ex ∨ p.get_successor s a ∈ front.map Prod.fst
    · rw [if_pos hc, if_pos hc]
      exact ih ex front
    · rw [if_neg hc, if_neg hc]
      rw [ih ex ((p.get_successor s a, acts ++ [a]) :: front)]
      simp only [List.map_cons, List.map_nil, List.reverse_cons, List.append_assoc,
        List.singleton_append, dfsChildEntry]

theorem dfsPushedActs_sublist (p : Problem S A) (s : S) (ex : List S) :
    ∀ (l : List A) (seen : List S), (dfsPushedActs p ex s l seen).Sublist l := by
  intro l
  induction l with
  | nil => intro seen; simp [dfsPushedActs]
  | cons a more ih =>
    intro seen
    rw [dfsPushedActs]
    by_cases hc : p.get_successor s a ∈ ex ∨ p.get_successor s a ∈ seen
    · rw [if_pos hc]
      exact (ih seen).cons a
    · rw [if_neg hc]
      exact (ih _).cons₂ a

/-- Counterexample to claim C10 as stated: in DepthFirstSearch on
`loopBackProb`, after expanding state 1 the next node expanded has state
2, the successor of the first action, while the successor of the last
action of get_actions 1 is the filtered-out state 0. -/
theorem claimC10_cex :
    stepN (dfsStep loopBackProb) 2 ⟨[(0, [])], []⟩ =
      some ⟨[(2, [0, 0])], [1, 0]⟩ ∧
    (loopBackProb.get_actions 1).getLast? = some 1 ∧
    loopBackProb.get_successor 1 1 = 0 ∧
    List.map Prod.fst [((2 : Fin 3), ([0, 0] : List (Fin 2)))] = [2] ∧
    (2 : Fin 3) ≠ 0 := by
  exact ⟨rfl, by decide, by decide, by decide, by decide⟩

/-- Claim C10, amended: an expansion in DepthFirstSearch pushes exactly
the successors of the actions passing the duplicate filter, in
get_actions order (a sublist of get_actions), on top of the stack; the
step pops the head of the stack, so when at least one child is pushed,
the node expanded next is the successor of the last action that passed
the filter — not necessarily of the last action of get_actions. -/
theorem claimC10 :
    (∀ (p : Problem S A) (s : S) (acts : List A) (ex : List S) (l : List A)
      (front : List (S × List A)),
      dfsPush p s acts ex l front =
        ((dfsPushedActs p ex s l (front.map Prod.fst)).map (dfsChildEntry p s acts)).reverse
          ++ front) ∧
    (∀ (p : Problem S A) (s : S) (ex : List S) (l : List A) (seen : List S),
      (dfsPushedActs p ex s l seen).Sublist l) ∧
    (∀ (p : Problem S A) (s : S) (acts : List A) (ex : List S) (l : List A)
      (front : List (S × List A)) (b : A),
      (dfsPushedActs p ex s l (front.map Prod.fst)).getLast? = some b →
      (dfsPush p s acts ex l front).head? = some (dfsChildEntry p s acts b)) ∧
    (∀ (p : Problem S A) (st : FrontierState S A) (s : S) (acts : List A)
      (rest : List (S × List A)),
      st.frontier = (s, acts) :: rest → p.is_goal s = false →
      dfsStep p st = .next
        ⟨dfsPush p s acts (s :: st.explored) (p.get_actions s) rest, s :: st.explored⟩) := by
  refine ⟨fun p s acts ex l front => dfsPush_eq_pushedActs p s acts l ex front,
    dfsPushedActs_sublist, ?_, ?_⟩
  · intro p s acts ex l front b hlast
    rw [dfsPush_eq_pushedActs]
    have hne : (dfsPushedActs p ex s l (front.map Prod.fst)).map (dfsChildEntry p s acts) ≠ [] := by
      intro hnil
      rw [List.map_eq_nil_iff] at hnil
      rw [hnil] at hlast
      cases hlast
    rw [List.head?_append_of_ne_nil _ (by simpa using hne)]
    rw [head?_reverse_eq_getLast?, getLast?_map_eq, hlast]
    rfl
  · intro p st s acts rest hfr hg
    obtain ⟨front, explored⟩ := st
    simp only at hfr
    subst hfr
    rw [dfsStep, if_neg (by rw [hg]; exact Bool.false_ne_true)]

/-- Witness for the amended C10: expanding state 1 of `loopBackProb`
(with 0 and 1 explored), only the first action passes the filter and the
pushed top of stack is its successor entry (2, [0, 0]). -/
theorem claimC10_witness :
    (dfsPush loopBackProb 1 [0] [1, 0] [0, 1] []).head? = some (2, [0, 0]) :=
  claimC10.2.2.1 loopBackProb 1 [0] [1, 0] [0, 1] [] 0 rfl

theorem length_le_weight_sum (p : Problem S A) :
    ∀ l : List S, l.length ≤ (l.map (exploreWeight p)).sum := by
  intro l
  induction l with
  | nil => simp
  | cons a t ih =>
    simp only [List.map_cons, List.sum_cons, List.length_cons, exploreWeight]
    omega

theorem weightSum_cons (p : Problem S A) {R : List S} (hR : R.Nodup) {s : S}
    (hsR : s ∈ R) {explored : List S} (hs : s ∉ explored) :
    weightSum p R (s :: explored) + exploreWeight p s = weightSum p R explored := by
  induction R with
  | nil => cases hsR
  | cons r R' ih =>
    rw [List.nodup_cons] at hR
    rcases List.mem_cons.mp hsR with rfl | hsR'
    · have hcongr : R'.filter (fun x => decide (x ∉ s :: explored)) =
          R'.filter (fun x => decide (x ∉ explored)) := by
        apply List.filter_congr
        intro x hx
        have hxs : x ≠ s := fun hc => hR.1 (hc ▸ hx)
        simp [List.mem_cons, hxs]
      rw [weightSum, weightSum, List.filter_cons, List.filter_cons,
        if_neg (by simp), if_pos (by simpa using hs), hcongr]
      simp only [List.map_cons, List.sum_cons]
      omega
    · have hrs : r ≠ s := fun hc => hR.1 (hc ▸ hsR')
      have hih := ih hR.2 hsR'
      rw [weightSum, weightSum] at hih
      rw [weightSum, weightSum, List.filter_cons, List.filter_cons]
      by_cases hre : r ∈ explored
      · rw [if_neg (by simp [hre]), if_neg (by simp [List.mem_cons, hre])]
        exact hih
      · rw [if_pos (by simp [List.mem_cons, hrs, hre]), if_pos (by simpa using hre)]
        simp only [List.map_cons, List.sum_cons]
        omega

theorem weightSum_prepend (p : Problem S A) {R : List S} (hR : R.Nodup) :
    ∀ (news explored : List S), news.Nodup →
      (∀ x ∈ news, x ∈ R ∧ x ∉ explored) →
      weightSum p R (news ++ explored) + (news.map (exploreWeight p)).sum =
        weightSum p R explored := by
  intro news
  induction news with
  | nil => intro explored _ _; simp
  | cons c news' ih =>
    intro explored hnd hprop
    rw [List.nodup_cons] at hnd
    have hc := hprop c (List.mem_cons_self _ _)
    have hmem : c ∉ news' ++ explored := by
      intro hc'
      rcases List.mem_append.mp hc' with hn | he
      · exact hnd.1 hn
      · exact hc.2 he
    have hcons := weightSum_cons p hR hc.1 hmem
    have hih := ih explored hnd.2 (fun x hx => hprop x (List.mem_cons_of_mem _ hx))
    simp only [List.cons_append, List.map_cons, List.sum_cons]
    rw [← hih]
    simp only [List.cons_append] at hcons
    omega

theorem ucsChildren_elim (p : Problem S A) (cost : Nat) (acts : List A) (s : S) :
    ∀ (l : List A) (c : Nat), ∀ e ∈ ucsChildren p cost acts s l c,
      ∃ b ∈ l, e.state = p.get_successor s b ∧ e.cost = cost + p.get_cost s b ∧
        e.actions = acts ++ [b] := by
  intro l
  induction l with
  | nil => intro c e he; simp [ucsChildren] at he
  | cons a more ih =>
    intro c e he
    rw [ucsChildren] at he
    rcases List.mem_cons.mp he with rfl | hem
    · exact ⟨a, List.mem_cons_self _ _, rfl, rfl, rfl⟩
    · obtain ⟨b, hb, hrest⟩ := ih (c + 1) e hem
      exact ⟨b, List.mem_cons_of_mem _ hb, hrest⟩

theorem ucsChildren_length (p : Problem S A) (cost : Nat) (acts : List A) (s : S) :
    ∀ (l : List A) (c : Nat), (ucsChildren p cost acts s l c).length = l.length := by
  intro l
  induction l with
  | nil => intro c; rfl
  | cons a more ih =>
    intro c
    rw [ucsChildren]
    simp only [List.length_cons, ih (c + 1)]

theorem astarChildren_elim (p : Problem S A) (h : S → Nat) (cost : Nat)
    (acts : List A) (s : S) (ex : List S) :
    ∀ (l : List A) (c : Nat), ∀ e ∈ astarChildren p h cost acts s ex l c,
      ∃ b ∈ l, e.state = p.get_successor s b ∧ e.cost = cost + p.get_cost s b ∧
        e.f = cost + p.get_cost s b + h (p.get_successor s b) ∧
        e.actions = acts ++ [b] := by
  intro l
  induction l with
  | nil => intro c e he; simp [astarChildren] at he
  | cons a more ih =>
    intro c e he
    rw [astarChildren] at he
    by_cases hx : p.get_successor s a ∈ ex
    · rw [if_pos hx] at he
      obtain ⟨b, hb, hrest⟩ := ih c e he
      exact ⟨b, List.mem_cons_of_mem _ hb, hrest⟩
    · rw [if_neg hx] at he
      rcases List.mem_cons.mp he with rfl | hem
      · exact ⟨a, List.mem_cons_self _ _, rfl, rfl, rfl, rfl⟩
      · obtain ⟨b, hb, hrest⟩ := ih (c + 1) e hem
        exact ⟨b, List.mem_cons_of_mem _ hb, hrest⟩

theorem astarChildren_length_le (p : Problem S A) (h : S → Nat) (cost : Nat)
    (acts : List A) (s : S) (ex : List S) :
    ∀ (l : List A) (c : Nat), (astarChildren p h cost acts s ex l c).length ≤ l.length := by
  intro l
  induction l with
  | nil => intro c; simp [astarChildren]
  | cons a more ih =>
    intro c
    rw [astarChildren]
    by_cases hx : p.get_successor s a ∈ ex
    · rw [if_pos hx]
      exact Nat.le_succ_of_le (ih c)
    · rw [if_neg hx]
      simpa using ih (c + 1)

theorem bestFChildren_elim (p : Problem S A) (h : S → Nat)
    (acts : List A) (s : S) (ex : List S) :
    ∀ (l : List A) (c : Nat), ∀ e ∈ bestFChildren p h acts s ex l c,
      ∃ b ∈ l, e.state = p.get_successor s b ∧ e.hval = h (p.get_successor s b) ∧
        e.actions = acts ++ [b] := by
  intro l
  induction l with
  | nil => intro c e he; simp [bestFChildren] at he
  | cons a more ih =>
    intro c e he
    rw [bestFChildren] at he
    by_cases hx : p.get_successor s a ∈ ex
    · rw [if_pos hx] at he
      obtain ⟨b, hb, hrest⟩ := ih c e he
      exact ⟨b, List.mem_cons_of_mem _ hb, hrest⟩
    · rw [if_neg hx] at he
      rcases List.mem_cons.mp he with rfl | hem
      · exact ⟨a, List.mem_cons_self _ _, rfl, rfl, rfl⟩
      · obtain ⟨b, hb, hrest⟩ := ih (c + 1) e hem
        exact ⟨b, List.mem_cons_of_mem _ hb, hrest⟩

theorem bestFChildren_length_le (p : Problem S A) (h : S → Nat)
    (acts : List A) (s : S) (ex : List S) :
    ∀ (l : List A) (c : Nat), (bestFChildren p h acts s ex l c).length ≤ l.length := by
  intro l
  induction l with
  | nil => intro c; simp [bestFChildren]
  | cons a more ih =>
    intro c
    rw [bestFChildren]
    by_cases hx : p.get_successor s a ∈ ex
    · rw [if_pos hx]
      exact Nat.le_succ_of_le (ih c)
    · rw [if_neg hx]
      simpa using ih (c + 1)

theorem ucs_terminates (p : Problem S A) (init : S) (hfin : FiniteReach p init) :
    ∃ fuel r, UniformCostSearch p init fuel = some r := by
  obtain ⟨R, hRnd, hinit, hclosed⟩ := hfin
  have key := iterLoop_of_measure (ucsStep p)
    (fun st => (∀ e ∈ st.frontier, e.state ∈ R) ∧ st.explored ⊆ R ∧ st.explored.Nodup)
    (fun st => st.frontier.length + weightSum p R st.explored)
    ?_ ⟨[⟨0, 0, init, []⟩], [], 1⟩ ⟨by simpa using hinit, by simp, by simp⟩
  · obtain ⟨r, hr⟩ := key
    exact ⟨_, r, hr⟩
  · intro st st' hI hs
    obtain ⟨hfr, hex, hnd⟩ := hI
    obtain ⟨m, rest, hpop, hg, hcase⟩ := ucsStep_next p hs
    have hlen := popMinBy_length ucsKey hpop
    rcases hcase with ⟨hm, rfl⟩ | ⟨hm, rfl⟩
    · refine ⟨⟨fun e he => hfr e (popMinBy_rest_subset ucsKey hpop he), hex, hnd⟩, ?_⟩
      dsimp only
      omega
    · have hmR : m.state ∈ R := hfr m (popMinBy_mem ucsKey hpop)
      have hws := weightSum_cons p hRnd hmR hm
      rw [exploreWeight] at hws
      refine ⟨⟨?_, ?_, ?_⟩, ?_⟩
      · intro e he
        dsimp only at he
        rcases List.mem_append.mp he with hr | hc
        · exact hfr e (popMinBy_rest_subset ucsKey hpop hr)
        · obtain ⟨b, hb, h1, _, _⟩ := ucsChildren_elim p m.cost m.actions m.state _ _ e hc
          rw [h1]
          exact hclosed m.state hmR b hb
      · exact List.cons_subset.mpr ⟨hmR, hex⟩
      · exact List.nodup_cons.mpr ⟨hm, hnd⟩
      · dsimp only
        rw [List.length_append, ucsChildren_length]
        omega

theorem bfs_terminates (p : Problem S A) (init : S) (hfin : FiniteReach p init) :
    ∃ fuel r, BreadthFirstSearch p init fuel = some r := by
  by_cases hg : p.is_goal init = true
  · exact ⟨0, some [], by simp [BreadthFirstSearch, hg]⟩
  obtain ⟨R, hRnd, hinit, hclosed⟩ := hfin
  have key := iterLoop_of_measure (bfsStep p)
    (fun st => (∀ x ∈ st.frontier.map Prod.fst, x ∈ R) ∧ st.explored ⊆ R ∧ st.explored.Nodup)
    (fun st => st.frontier.length + weightSum p R st.explored)
    ?_ ⟨[(init, [])], [init]⟩ ⟨by simpa using hinit, by simpa using hinit, by simp⟩
  · obtain ⟨r, hr⟩ := key
    have heq : ∀ fuel, BreadthFirstSearch p init fuel = iterLoop (bfsStep p) fuel ⟨[(init, [])], [init]⟩ :=
      fun fuel => by rw [BreadthFirstSearch, if_neg hg]
    exact ⟨_, r, (heq _).trans hr⟩
  · intro st st' hI hs
    obtain ⟨hfr, hex, hnd⟩ := hI
    obtain ⟨s, acts, rest, added, exp', hfrEq, hexp, rfl⟩ := bfsStep_next p hs
    obtain ⟨h1, h2, h3, h4⟩ := bfsExpand_inr_spec p s acts _ _ _ _ hexp
    have hsR : s ∈ R := hfr s (by rw [hfrEq]; simp)
    have hnews : ∀ x ∈ (added.map Prod.fst).reverse, x ∈ R ∧ x ∉ st.explored := by
      intro x hx
      rw [List.mem_reverse] at hx
      obtain ⟨e, he, rfl⟩ := List.mem_map.mp hx
      obtain ⟨b, hb, he1, he2, he3, he4⟩ := h2 e he
      exact ⟨by rw [he1]; exact hclosed s hsR b hb, he4⟩
    have hnewsnd : ((added.map Prod.fst).reverse).Nodup := by
      have hexpnd : exp'.Nodup := h4 hnd
      rw [h1] at hexpnd
      exact hexpnd.of_append_left
    have hws := weightSum_prepend p hRnd ((added.map Prod.fst).reverse) st.explored hnewsnd hnews
    rw [← h1] at hws
    have hsum := length_le_weight_sum p ((added.map Prod.fst).reverse)
    refine ⟨⟨?_, ?_, h4 hnd⟩, ?_⟩
    · intro x hx
      dsimp only at hx
      rw [List.map_append] at hx
      rcases List.mem_append.mp hx with hr | ha
      · exact hfr x (by rw [hfrEq]; exact List.mem_cons_of_mem _ hr)
      · obtain ⟨e, he, rfl⟩ := List.mem_map.mp ha
        obtain ⟨b, hb, he1, he2, he3, he4⟩ := h2 e he
        rw [he1]
        exact hclosed s hsR b hb
    · intro x hx
      dsimp only at hx
      rw [h1] at hx
      rcases List.mem_append.mp hx with hn | he
      · exact (hnews x hn).1
      · exact hex he
    · dsimp only
      have hfl : st.frontier.length = rest.length + 1 := by rw [hfrEq]; rfl
      have hal : ((added.map Prod.fst).reverse).length = added.length := by simp
      rw [List.length_append]
      omega

theorem dfs_terminates (p : Problem S A) (init : S) (hfin : FiniteReach p init) :
    ∃ fuel r, DepthFirstSearch p init fuel = some r := by
  by_cases hg : p.is_goal init = true
  · exact ⟨0, some [], by simp [DepthFirstSearch, hg]⟩
  obtain ⟨R, hRnd, hinit, hclosed⟩ := hfin
  have key := iterLoop_of_measure (dfsStep p)
    (fun st => dfsBaseInv st ∧ (∀ x ∈ st.frontier.map Prod.fst, x ∈ R) ∧
      st.explored ⊆ R ∧ st.explored.Nodup)
    (fun st => st.frontier.length + weightSum p R st.explored)
    ?_ ⟨[(init, [])], []⟩ ⟨⟨by simp, by simp⟩, by simpa using hinit, by simp, by simp⟩
  · obtain ⟨r, hr⟩ := key
    have heq : ∀ fuel, DepthFirstSearch p init fuel = iterLoop (dfsStep p) fuel ⟨[(init, [])], []⟩ :=
      fun fuel => by rw [DepthFirstSearch, if_neg hg]
    exact ⟨_, r, (heq _).trans hr⟩
  · intro st st' hI hs
    obtain ⟨hbase, hfr, hex, hnd⟩ := hI
    obtain ⟨s, acts, rest, hfrEq, hgs, rfl⟩ := dfsStep_next p hs
    obtain ⟨news, h1, h2, h3, h4⟩ := dfsPush_spec p s acts (p.get_actions s) (s :: st.explored) rest
    have hsR : s ∈ R := hfr s (by rw [hfrEq]; simp)
    have hsex : s ∉ st.explored := hbase.2 s (by rw [hfrEq]; simp)
    have hws := weightSum_cons p hRnd hsR hsex
    rw [exploreWeight] at hws
    refine ⟨⟨dfsBaseInv_step p hbase hs, ?_, ?_, ?_⟩, ?_⟩
    · intro x hx
      dsimp only at hx
      rw [h1, List.map_append] at hx
      rcases List.mem_append.mp hx with hn | hr
      · obtain ⟨e, he, rfl⟩ := List.mem_map.mp hn
        obtain ⟨⟨b, hb, rfl⟩, _, _⟩ := h2 e he
        exact hclosed s hsR b hb
      · exact hfr x (by rw [hfrEq]; exact List.mem_cons_of_mem _ hr)
    · exact List.cons_subset.mpr ⟨hsR, hex⟩
    · exact List.nodup_cons.mpr ⟨hsex, hnd⟩
    · dsimp only
      rw [h1, List.length_append]
      have hfl : st.frontier.length = rest.length + 1 := by rw [hfrEq]; rfl
      omega

theorem astar_terminates (p : Problem S A) (h : S → Nat) (init : S)
    (hfin : FiniteReach p init) :
    ∃ fuel r, AStarSearch p h init fuel = some r := by
  by_cases hg : p.is_goal init = true
  · exact ⟨0, some [], by simp [AStarSearch, hg]⟩
  obtain ⟨R, hRnd, hinit, hclosed⟩ := hfin
  have key := iterLoop_of_measure (astarStep p h)
    (fun st => (∀ e ∈ st.frontier, e.state ∈ R) ∧ st.explored ⊆ R ∧ st.explored.Nodup)
    (fun st => st.frontier.length + weightSum p R st.explored)
    ?_ ⟨[⟨h init, 0, 0, init, []⟩], [], 1⟩ ⟨by simpa using hinit, by simp, by simp⟩
  · obtain ⟨r, hr⟩ := key
    have heq : ∀ fuel, AStarSearch p h init fuel = iterLoop (astarStep p h) fuel ⟨[⟨h init, 0, 0, init, []⟩], [], 1⟩ :=
      fun fuel => by rw [AStarSearch, if_neg hg]
    exact ⟨_, r, (heq _).trans hr⟩
  · intro st st' hI hs
    obtain ⟨hfr, hex, hnd⟩ := hI
    obtain ⟨m, rest, hpop, hgs, hcase⟩ := astarStep_next p h hs
    have hlen := popMinBy_length astarKey hpop
    rcases hcase with ⟨hm, rfl⟩ | ⟨hm, rfl⟩
    · refine ⟨⟨fun e he => hfr e (popMinBy_rest_subset astarKey hpop he), hex, hnd⟩, ?_⟩
      dsimp only
      omega
    · have hmR : m.state ∈ R := hfr m (popMinBy_mem astarKey hpop)
      have hws := weightSum_cons p hRnd hmR hm
      rw [exploreWeight] at hws
      have hchlen := astarChildren_length_le p h m.cost m.actions m.state
        (m.state :: st.explored) (p.get_actions m.state) st.counter
      refine ⟨⟨?_, ?_, ?_⟩, ?_⟩
      · intro e he
        dsimp only at he
        rcases List.mem_append.mp he with hr | hc
        · exact hfr e (popMinBy_rest_subset astarKey hpop hr)
        · obtain ⟨b, hb, h1, _, _, _⟩ :=
            astarChildren_elim p h m.cost m.actions m.state _ _ _ e hc
          rw [h1]
          exact hclosed m.state hmR b hb
      · exact List.cons_subset.mpr ⟨hmR, hex⟩
      · exact List.nodup_cons.mpr ⟨hm, hnd⟩
      · dsimp only
        rw [List.length_append]
        omega

theorem bestF_terminates (p : Problem S A) (h : S → Nat) (init : S)
    (hfin : FiniteReach p init) :
    ∃ fuel r, BestFirstSearch p h init fuel = some r := by
  by_cases hg : p.is_goal init = true
  · exact ⟨0, some [], by simp [BestFirstSearch, hg]⟩
  obtain ⟨R, hRnd, hinit, hclosed⟩ := hfin
  have key := iterLoop_of_measure (bestFStep p h)
    (fun st => (∀ e ∈ st.frontier, e.state ∈ R) ∧ st.explored ⊆ R ∧ st.explored.Nodup)
    (fun st => st.frontier.length + weightSum p R st.explored)
    ?_ ⟨[⟨h init, 0, init, []⟩], [], 1⟩ ⟨by simpa using hinit, by simp, by simp⟩
  · obtain ⟨r, hr⟩ := key
    have heq : ∀ fuel, BestFirstSearch p h init fuel = iterLoop (bestFStep p h) fuel ⟨[⟨h init, 0, init, []⟩], [], 1⟩ :=
      fun fuel => by rw [BestFirstSearch, if_neg hg]
    exact ⟨_, r, (heq _).trans hr⟩
  · intro st st' hI hs
    obtain ⟨hfr, hex, hnd⟩ := hI
    obtain ⟨m, rest, hpop, hgs, hcase⟩ := bestFStep_next p h hs
    have hlen := popMinBy_length bestFKey hpop
    rcases hcase with ⟨hm, rfl⟩ | ⟨hm, rfl⟩
    · refine ⟨⟨fun e he => hfr e (popMinBy_rest_subset bestFKey hpop he), hex, hnd⟩, ?_⟩
      dsimp only
      omega
    · have hmR : m.state ∈ R := hfr m (popMinBy_mem bestFKey hpop)
      have hws := weightSum_cons p hRnd hmR hm
      rw [exploreWeight] at hws
      have hchlen := bestFChildren_length_le p h m.actions m.state
        (m.state :: st.explored) (p.get_actions m.state) st.counter
      refine ⟨⟨?_, ?_, ?_⟩, ?_⟩
      · intro e he
        dsimp only at he
        rcases List.mem_append.mp he with hr | hc
        · exact hfr e (popMinBy_rest_subset bestFKey hpop hr)
        · obtain ⟨b, hb, h1, _, _⟩ :=
            bestFChildren_elim p h m.actions m.state _ _ _ e hc
          rw [h1]
          exact hclosed m.state hmR b hb
      · exact List.cons_subset.mpr ⟨hmR, hex⟩
      · exact List.nodup_cons.mpr ⟨hm, hnd⟩
      · dsimp only
        rw [List.length_append]
        omega

/-- Claim C9: on every problem whose reachable state space is finite
(witnessed by a duplicate-free successor-closed list of states), each of
the five search functions terminates: some fuel makes the fueled loop
return, either an action list or the no-solution value. -/
theorem claimC9 (p : Problem S A) (h : S → Nat) (init : S) (hfin : FiniteReach p init) :
    (∃ fuel r, BreadthFirstSearch p init fuel = some r) ∧
    (∃ fuel r, DepthFirstSearch p init fuel = some r) ∧
    (∃ fuel r, UniformCostSearch p init fuel = some r) ∧
    (∃ fuel r, AStarSearch p h init fuel = some r) ∧
    (∃ fuel r, BestFirstSearch p h init fuel = some r) :=
  ⟨bfs_terminates p init hfin, dfs_terminates p init hfin, ucs_terminates p init hfin,
    astar_terminates p h init hfin, bestF_terminates p h init hfin⟩

/-- Witness for C9 on the concrete cyclic problem with states 0, 1, 2. -/
theorem claimC9_witness :
    (∃ fuel r, BreadthFirstSearch cycProb 0 fuel = some r) ∧
    (∃ fuel r, DepthFirstSearch cycProb 0 fuel = some r) ∧
    (∃ fuel r, UniformCostSearch cycProb 0 fuel = some r) ∧
    (∃ fuel r, AStarSearch cycProb (fun _ => 0) 0 fuel = some r) ∧
    (∃ fuel r, BestFirstSearch cycProb (fun _ => 0) 0 fuel = some r) :=
  claimC9 cycProb (fun _ => 0) 0 ⟨[0, 1, 2], by decide, by decide, by decide⟩

/-- Claim C8: every continuing DepthFirstSearch iteration pops the top
node (s, acts), marks s explored, and pushes a block of new nodes whose
states are pairwise distinct, outside the updated explored set (which
includes s), and distinct from every state still pending in the stack;
and DepthFirstSearch terminates on every problem with a finite reachable
state space, cyclic state graphs included. -/
theorem claimC8 :
    (∀ (p : Problem S A) (st st' : FrontierState S A), dfsStep p st = .next st' →
      ∃ s acts rest news, st.frontier = (s, acts) :: rest ∧
        st'.explored = s :: st.explored ∧
        st'.frontier = news ++ rest ∧
        (news.map Prod.fst).Nodup ∧
        ∀ e ∈ news, e.1 ∉ s :: st.explored ∧ e.1 ∉ rest.map Prod.fst) ∧
    (∀ (p : Problem S A) (init : S), FiniteReach p init →
      ∃ fuel r, DepthFirstSearch p init fuel = some r) := by
  constructor
  · intro p st st' hs
    obtain ⟨s, acts, rest, hfr, hg, rfl⟩ := dfsStep_next p hs
    obtain ⟨news, h1, h2, h3, h4⟩ := dfsPush_spec p s acts (p.get_actions s) (s :: st.explored) rest
    exact ⟨s, acts, rest, news, hfr, rfl, h1, h3,
      fun e he => ⟨(h2 e he).2.1, (h2 e he).2.2⟩⟩
  · intro p init hfin
    exact dfs_terminates p init hfin

/-- Witness for C8: DepthFirstSearch terminates on the concrete cyclic
problem `cycProb`. -/
theorem claimC8_witness :
    ∃ fuel r, DepthFirstSearch cycProb 0 fuel = some r :=
  claimC8.2 cycProb 0 ⟨[0, 1, 2], by decide, by decide, by decide⟩

theorem runPath_mem_closed (p : Problem S A) {R : List S}
    (hclosed : ∀ s ∈ R, ∀ a ∈ p.get_actions s, p.get_successor s a ∈ R) :
    ∀ (q : List A) (s : S), s ∈ R → validPath p s q = true → runPath p s q ∈ R := by
  intro q
  induction q with
  | nil => intro s hs _; exact hs
  | cons a rest ih =>
    intro s hs hval
    rw [validPath, Bool.and_eq_true, decide_eq_true_eq] at hval
    exact ih (p.get_successor s a) (hclosed s hs a hval.1) hval.2

theorem ucs_sound (p : Problem S A) (init : S) :
    ∀ fuel r, UniformCostSearch p init fuel = some r →
      ∀ acts, r = some acts → GoalPath p init acts := by
  intro fuel r hrun
  refine iterLoop_inv (ucsStep p)
    (fun st => ∀ e ∈ st.frontier, validPath p init e.actions = true ∧
      runPath p init e.actions = e.state)
    (fun r => ∀ acts, r = some acts → GoalPath p init acts) ?_ ?_ fuel _ r ?_ hrun
  · intro st st' hI hs
    obtain ⟨m, rest, hpop, hg, hcase⟩ := ucsStep_next p hs
    have hm := hI m (popMinBy_mem ucsKey hpop)
    rcases hcase with ⟨hmem, rfl⟩ | ⟨hmem, rfl⟩
    · exact fun e he => hI e (popMinBy_rest_subset ucsKey hpop he)
    · intro e he
      dsimp only at he
      rcases List.mem_append.mp he with hr | hc
      · exact hI e (popMinBy_rest_subset ucsKey hpop hr)
      · obtain ⟨b, hb, h1, h2, h3⟩ := ucsChildren_elim p m.cost m.actions m.state _ _ e hc
        rw [h3, h1]
        constructor
        · rw [validPath_snoc, hm.1, hm.2, Bool.true_and, decide_eq_true_eq]
          exact hb
        · rw [runPath_snoc, hm.2]
  · intro st r hI hs acts hr
    rcases ucsStep_done p hs with ⟨_, rfl⟩ | ⟨m, rest, hpop, hg, rfl⟩
    · cases hr
    · cases hr
      have hm := hI m (popMinBy_mem ucsKey hpop)
      exact ⟨hm.1, by rw [hm.2]; exact hg⟩
  · intro e he
    rcases List.mem_singleton.mp he with rfl
    exact ⟨rfl, rfl⟩

theorem astar_sound (p : Problem S A) (h : S → Nat) (init : S) :
    ∀ fuel r, AStarSearch p h init fuel = some r →
      ∀ acts, r = some acts → GoalPath p init acts := by
  intro fuel r hrun acts hr
  rw [AStarSearch] at hrun
  by_cases hg : p.is_goal init = true
  · rw [if_pos hg] at hrun
    cases hrun
    cases hr
    exact ⟨rfl, hg⟩
  · rw [if_neg hg] at hrun
    refine iterLoop_inv (astarStep p h)
      (fun st => ∀ e ∈ st.frontier, validPath p init e.actions = true ∧
        runPath p init e.actions = e.state)
      (fun r => ∀ acts, r = some acts → GoalPath p init acts) ?_ ?_ fuel _ r ?_ hrun acts hr
    · intro st st' hI hs
      obtain ⟨m, rest, hpop, hgs, hcase⟩ := astarStep_next p h hs
      have hm := hI m (popMinBy_mem astarKey hpop)
      rcases hcase with ⟨hmem, rfl⟩ | ⟨hmem, rfl⟩
      · exact fun e he => hI e (popMinBy_rest_subset astarKey hpop he)
      · intro e he
        dsimp only at he
        rcases List.mem_append.mp he with hrr | hc
        · exact hI e (popMinBy_rest_subset astarKey hpop hrr)
        · obtain ⟨b, hb, h1, h2, h3, h4⟩ :=
            astarChildren_elim p h m.cost m.actions m.state _ _ _ e hc
          rw [h4, h1]
          constructor
          · rw [validPath_snoc, hm.1, hm.2, Bool.true_and, decide_eq_true_eq]
            exact hb
          · rw [runPath_snoc, hm.2]
    · intro st r hI hs acts' hr'
      rcases astarStep_done p h hs with ⟨_, rfl⟩ | ⟨m, rest, hpop, hgs, rfl⟩
      · cases hr'
      · cases hr'
        have hm := hI m (popMinBy_mem astarKey hpop)
        exact ⟨hm.1, by rw [hm.2]; exact hgs⟩
    · intro e he
      rcases List.mem_singleton.mp he with rfl
      exact ⟨rfl, rfl⟩

theorem bestF_sound (p : Problem S A) (h : S → Nat) (init : S) :
    ∀ fuel r, BestFirstSearch p h init fuel = some r →
      ∀ acts, r = some acts → GoalPath p init acts := by
  intro fuel r hrun acts hr
  rw [BestFirstSearch] at hrun
  by_cases hg : p.is_goal init = true
  · rw [if_pos hg] at hrun
    cases hrun
    cases hr
    exact ⟨rfl, hg⟩
  · rw [if_neg hg] at hrun
    refine iterLoop_inv (bestFStep p h)
      (fun st => ∀ e ∈ st.frontier, validPath p init e.actions = true ∧
        runPath p init e.actions = e.state)
      (fun r => ∀ acts, r = some acts → GoalPath p init acts) ?_ ?_ fuel _ r ?_ hrun acts hr
    · intro st st' hI hs
      obtain ⟨m, rest, hpop, hgs, hcase⟩ := bestFStep_next p h hs
      have hm := hI m (popMinBy_mem bestFKey hpop)
      rcases hcase with ⟨hmem, rfl⟩ | ⟨hmem, rfl⟩
      · exact fun e he => hI e (popMinBy_rest_subset bestFKey hpop he)
      · intro e he
        dsimp only at he
        rcases List.mem_append.mp he with hrr | hc
        · exact hI e (popMinBy_rest_subset bestFKey hpop hrr)
        · obtain ⟨b, hb, h1, h2, h3⟩ :=
            bestFChildren_elim p h m.actions m.state _ _ _ e hc
          rw [h3, h1]
          constructor
          · rw [validPath_snoc, hm.1, hm.2, Bool.true_and, decide_eq_true_eq]
            exact hb
          · rw [runPath_snoc, hm.2]
    · intro st r hI hs acts' hr'
      rcases bestFStep_done p h hs with ⟨_, rfl⟩ | ⟨m, rest, hpop, hgs, rfl⟩
      · cases hr'
      · cases hr'
        have hm := hI m (popMinBy_mem bestFKey hpop)
        exact ⟨hm.1, by rw [hm.2]; exact hgs⟩
    · intro e he
      rcases List.mem_singleton.mp he with rfl
      exact ⟨rfl, rfl⟩

theorem dfs_sound (p : Problem S A) (init : S) :
    ∀ fuel r, DepthFirstSearch p init fuel = some r →
      ∀ acts, r = some acts → GoalPath p init acts := by
  intro fuel r hrun acts hr
  rw [DepthFirstSearch] at hrun
  by_cases hg : p.is_goal init = true
  · rw [if_pos hg] at hrun
    cases hrun
    cases hr
    exact ⟨rfl, hg⟩
  · rw [if_neg hg] at hrun
    refine iterLoop_inv (dfsStep p)
      (fun st => ∀ e ∈ st.frontier, validPath p init e.2 = true ∧
        runPath p init e.2 = e.1)
      (fun r => ∀ acts, r = some acts → GoalPath p init acts) ?_ ?_ fuel _ r ?_ hrun acts hr
    · intro st st' hI hs
      obtain ⟨s, acts', rest, hfr, hgs, rfl⟩ := dfsStep_next p hs
      have hm := hI (s, acts') (by rw [hfr]; exact List.mem_cons_self _ _)
      obtain ⟨news, h1, h2, h3, h4⟩ :=
        dfsPush_spec p s acts' (p.get_actions s) (s :: st.explored) rest
      intro e he
      dsimp only at he
      rw [h1] at he
      rcases List.mem_append.mp he with hn | hrr
      · obtain ⟨⟨b, hb, rfl⟩, _, _⟩ := h2 e hn
        constructor
        · rw [validPath_snoc, hm.1, hm.2, Bool.true_and, decide_eq_true_eq]
          exact hb
        · rw [runPath_snoc, hm.2]
      · exact hI e (by rw [hfr]; exact List.mem_cons_of_mem _ hrr)
    · intro st r hI hs acts' hr'
      rcases dfsStep_done p hs with ⟨_, rfl⟩ | ⟨s, acts'', rest, hfr, hgs, rfl⟩
      · cases hr'
      · cases hr'
        have hm := hI (s, acts') (by rw [hfr]; exact List.mem_cons_self _ _)
        exact ⟨hm.1, by rw [hm.2]; exact hgs⟩
    · intro e he
      rcases List.mem_singleton.mp he with rfl
      exact ⟨rfl, rfl⟩

theorem bfs_sound (p : Problem S A) (init : S) :
    ∀ fuel r, BreadthFirstSearch p init fuel = some r →
      ∀ acts, r = some acts → GoalPath p init acts := by
  intro fuel r hrun acts hr
  rw [BreadthFirstSearch] at hrun
  by_cases hg : p.is_goal init = true
  · rw [if_pos hg] at hrun
    cases hrun
    cases hr
    exact ⟨rfl, hg⟩
  · rw [if_neg hg] at hrun
    refine iterLoop_inv (bfsStep p)
      (fun st => ∀ e ∈ st.frontier, validPath p init e.2 = true ∧
        runPath p init e.2 = e.1)
      (fun r => ∀ acts, r = some acts → GoalPath p init acts) ?_ ?_ fuel _ r ?_ hrun acts hr
    · intro st st' hI hs
      obtain ⟨s, acts', rest, added, exp', hfr, hexp, rfl⟩ := bfsStep_next p hs
      have hm := hI (s, acts') (by rw [hfr]; exact List.mem_cons_self _ _)
      obtain ⟨h1, h2, h3, h4⟩ := bfsExpand_inr_spec p s acts' _ _ _ _ hexp
      intro e he
      dsimp only at he
      rcases List.mem_append.mp he with hrr | ha
      · exact hI e (by rw [hfr]; exact List.mem_cons_of_mem _ hrr)
      · obtain ⟨b, hb, he1, he2, he3, he4⟩ := h2 e ha
        obtain ⟨x, y⟩ := e
        dsimp only at he1 he2
        subst he1
        subst he2
        constructor
        · rw [validPath_snoc, hm.1, hm.2, Bool.true_and, decide_eq_true_eq]
          exact hb
        · rw [runPath_snoc, hm.2]
    · intro st r hI hs acts' hr'
      rcases bfsStep_done p hs with ⟨_, rfl⟩ | ⟨s, acts'', rest, sol, hfr, hexp, rfl⟩
      · cases hr'
      · cases hr'
        have hm := hI (s, acts'') (by rw [hfr]; exact List.mem_cons_self _ _)
        obtain ⟨b, hb, rfl, hbg, hbex⟩ := bfsExpand_inl_spec p s acts'' _ _ _ hexp
        constructor
        · rw [validPath_snoc, hm.1, hm.2, Bool.true_and, decide_eq_true_eq]
          exact hb
        · rw [runPath_snoc, hm.2]
          exact hbg
    · intro e he
      rcases List.mem_singleton.mp he with rfl
      exact ⟨rfl, rfl⟩

/-- Claim C4: on a finite-reachable problem with no reachable goal, each
of the five search functions terminates with the Python value None
(modelled as the inner `none`), and that value is distinct from every
action sequence — in particular from the empty one. -/
theorem claimC4 (p : Problem S A) (h : S → Nat) (init : S)
    (hfin : FiniteReach p init) (hnr : ¬ GoalReachable p init) :
    (∃ fuel, BreadthFirstSearch p init fuel = some none) ∧
    (∃ fuel, DepthFirstSearch p init fuel = some none) ∧
    (∃ fuel, UniformCostSearch p init fuel = some none) ∧
    (∃ fuel, AStarSearch p h init fuel = some none) ∧
    (∃ fuel, BestFirstSearch p h init fuel = some none) ∧
    (∀ acts : List A, (some acts : Option (List A)) ≠ none) := by
  refine ⟨?_, ?_, ?_, ?_, ?_, fun acts hc => by cases hc⟩
  · obtain ⟨fuel, r, hr⟩ := bfs_terminates p init hfin
    cases r with
    | none => exact ⟨fuel, hr⟩
    | some acts => exact absurd ⟨acts, bfs_sound p init fuel _ hr acts rfl⟩ hnr
  · obtain ⟨fuel, r, hr⟩ := dfs_terminates p init hfin
    cases r with
    | none => exact ⟨fuel, hr⟩
    | some acts => exact absurd ⟨acts, dfs_sound p init fuel _ hr acts rfl⟩ hnr
  · obtain ⟨fuel, r, hr⟩ := ucs_terminates p init hfin
    cases r with
    | none => exact ⟨fuel, hr⟩
    | some acts => exact absurd ⟨acts, ucs_sound p init fuel _ hr acts rfl⟩ hnr
  · obtain ⟨fuel, r, hr⟩ := astar_terminates p h init hfin
    cases r with
    | none => exact ⟨fuel, hr⟩
    | some acts => exact absurd ⟨acts, astar_sound p h init fuel _ hr acts rfl⟩ hnr
  · obtain ⟨fuel, r, hr⟩ := bestF_terminates p h init hfin
    cases r with
    | none => exact ⟨fuel, hr⟩
    | some acts => exact absurd ⟨acts, bestF_sound p h init fuel _ hr acts rfl⟩ hnr

/-- Witness for C4 on the disconnected problem `discProb`, whose goal 3
is unreachable from 0. -/
theorem claimC4_witness :
    (∃ fuel, BreadthFirstSearch discProb 0 fuel = some none) ∧
    (∃ fuel, DepthFirstSearch discProb 0 fuel = some none) ∧
    (∃ fuel, UniformCostSearch discProb 0 fuel = some none) ∧
    (∃ fuel, AStarSearch discProb (fun _ => 0) 0 fuel = some none) ∧
    (∃ fuel, BestFirstSearch discProb (fun _ => 0) 0 fuel = some none) ∧
    (∀ acts : List (Fin 2), (some acts : Option (List (Fin 2))) ≠ none) := by
  refine claimC4 discProb (fun _ => 0) 0 ⟨[0, 1], by decide, by decide, by decide⟩ ?_
  rintro ⟨q, hval, hgoal⟩
  have hmem : runPath discProb 0 q ∈ ([0, 1] : List (Fin 4)) :=
    runPath_mem_closed discProb (by decide) q 0 (by decide) hval
  rcases List.mem_cons.mp hmem with h0 | h1
  · rw [h0] at hgoal
    exact absurd hgoal (by decide)
  · rcases List.mem_singleton.mp h1 with h1'
    rw [h1'] at hgoal
    exact absurd hgoal (by decide)

theorem ucsInv_cover (p : Problem S A) (init : S) {st : UcsState S A}
    (hI : ucsInv p init st) :
    ∀ q, validPath p init q = true → runPath p init q ∉ st.explored →
      ∃ e ∈ st.frontier, e.cost ≤ pathCost p init q := by
  intro q
  induction q using List.reverseRecOn with
  | nil =>
    intro _ hnm
    rcases hI.2.2.1 with hin | ⟨e, he, _, hc0⟩
    · exact absurd hin hnm
    · exact ⟨e, he, by rw [hc0, pathCost]⟩
  | append_singleton q b ih =>
    intro hval hnm
    rw [runPath_snoc] at hnm
    rw [validPath_snoc, Bool.and_eq_true, decide_eq_true_eq] at hval
    obtain ⟨hvq, hb⟩ := hval
    by_cases hx : runPath p init q ∈ st.explored
    · rcases hI.2.2.2 _ hx b hb with hin | ⟨e, he, hst, hbound⟩
      · exact absurd hin hnm
      · exact ⟨e, he, by rw [pathCost_snoc]; exact hbound q hvq rfl⟩
    · obtain ⟨e, he, hc⟩ := ih hvq hx
      exact ⟨e, he, by rw [pathCost_snoc]; exact le_trans hc (Nat.le_add_right _ _)⟩

theorem ucsInv_step (p : Problem S A) (init : S) {st st' : UcsState S A}
    (hI : ucsInv p init st) (hs : ucsStep p st = .next st') : ucsInv p init st' := by
  obtain ⟨m, rest, hpop, hg, hcase⟩ := ucsStep_next p hs
  obtain ⟨hG1, hG2, hG3, hG4⟩ := hI
  rcases hcase with ⟨hmem, rfl⟩ | ⟨hmem, rfl⟩
  · -- discard: the popped state is already explored
    refine ⟨fun e he => hG1 e (popMinBy_rest_subset ucsKey hpop he), hG2, ?_, ?_⟩
    · rcases hG3 with hin | ⟨e, he, hst, hc⟩
      · exact Or.inl hin
      · rcases popMinBy_mem_of_mem ucsKey hpop he with rfl | hr
        · exact Or.inl (hst ▸ hmem)
        · exact Or.inr ⟨e, hr, hst, hc⟩
    · intro x hx b hb
      rcases hG4 x hx b hb with hin | ⟨e, he, hst, hbound⟩
      · exact Or.inl hin
      · rcases popMinBy_mem_of_mem ucsKey hpop he with rfl | hr
        · exact Or.inl (hst ▸ hmem)
        · exact Or.inr ⟨e, hr, hst, hbound⟩
  · -- expand: the popped state is new
    have hmG1 := hG1 m (popMinBy_mem ucsKey hpop)
    have hpopt : ∀ q, validPath p init q = true → runPath p init q = m.state →
        m.cost ≤ pathCost p init q := by
      intro q hvq hrq
      obtain ⟨e, he, hc⟩ := ucsInv_cover p init ⟨hG1, hG2, hG3, hG4⟩ q hvq (hrq ▸ hmem)
      have hmin := popMinBy_min_pair ucsKey hpop he
      have hmc : m.cost ≤ e.cost := by
        rcases hmin with hlt | ⟨heq, _⟩
        · exact Nat.le_of_lt hlt
        · exact Nat.le_of_eq heq
      exact le_trans hmc hc
    constructor
    · intro e he
      dsimp only at he
      rcases List.mem_append.mp he with hr | hc
      · exact hG1 e (popMinBy_rest_subset ucsKey hpop hr)
      · obtain ⟨b, hb, h1, h2, h3⟩ := ucsChildren_elim p m.cost m.actions m.state _ _ e hc
        refine ⟨?_, ?_, ?_⟩
        · rw [h3, validPath_snoc, hmG1.1, hmG1.2.1, Bool.true_and, decide_eq_true_eq]
          exact hb
        · rw [h3, runPath_snoc, hmG1.2.1, h1]
        · rw [h3, pathCost_snoc, hmG1.2.1, hmG1.2.2, h2]
    constructor
    · intro s hsx
      rcases List.mem_cons.mp hsx with rfl | hsx'
      · exact hg
      · exact hG2 s hsx'
    constructor
    · rcases hG3 with hin | ⟨e, he, hst, hc⟩
      · exact Or.inl (List.mem_cons_of_mem _ hin)
      · rcases popMinBy_mem_of_mem ucsKey hpop he with rfl | hr
        · exact Or.inl (hst ▸ List.mem_cons_self _ _)
        · exact Or.inr ⟨e, List.mem_append_left _ hr, hst, hc⟩
    · intro x hx b hb
      rcases List.mem_cons.mp hx with rfl | hx'
      · obtain ⟨e, he, h1, h2, h3⟩ := ucsChildren_mem p m.cost m.actions m.state
          (p.get_actions m.state) st.counter b hb
        refine Or.inr ⟨e, List.mem_append_right _ he, h1, ?_⟩
        intro q hvq hrq
        rw [h2]
        exact Nat.add_le_add_right (hpopt q hvq hrq) _
      · rcases hG4 x hx' b hb with hin | ⟨e, he, hst, hbound⟩
        · exact Or.inl (List.mem_cons_of_mem _ hin)
        · rcases popMinBy_mem_of_mem ucsKey hpop he with rfl | hr
          · exact Or.inl (hst ▸ List.mem_cons_self _ _)
          · exact Or.inr ⟨e, List.mem_append_left _ hr, hst, hbound⟩

theorem ucs_optimal (p : Problem S A) (init : S) :
    ∀ fuel r, UniformCostSearch p init fuel = some r →
      ∀ q, GoalPath p init q → ∃ acts, r = some acts ∧ GoalPath p init acts ∧
        pathCost p init acts ≤ pathCost p init q := by
  intro fuel r hrun
  refine iterLoop_inv (ucsStep p) (ucsInv p init)
    (fun r => ∀ q, GoalPath p init q → ∃ acts, r = some acts ∧ GoalPath p init acts ∧
      pathCost p init acts ≤ pathCost p init q)
    (fun st st' hI hs => ucsInv_step p init hI hs) ?_ fuel _ r ?_ hrun
  · intro st r hI hs q hq
    have hqnex : runPath p init q ∉ st.explored := by
      intro hin
      exact Bool.false_ne_true ((hI.2.1 _ hin).symm.trans hq.2)
    rcases ucsStep_done p hs with ⟨hfr0, rfl⟩ | ⟨m, rest, hpop, hgm, rfl⟩
    · obtain ⟨e, he, _⟩ := ucsInv_cover p init hI q hq.1 hqnex
      rw [hfr0] at he
      cases he
    · obtain ⟨e, he, hc⟩ := ucsInv_cover p init hI q hq.1 hqnex
      have hmin := popMinBy_min_pair ucsKey hpop he
      have hmG1 := hI.1 m (popMinBy_mem ucsKey hpop)
      refine ⟨m.actions, rfl, ⟨hmG1.1, by rw [hmG1.2.1]; exact hgm⟩, ?_⟩
      rw [hmG1.2.2]
      have hmc : m.cost ≤ e.cost := by
        rcases hmin with hlt | ⟨heq, _⟩
        · exact Nat.le_of_lt hlt
        · exact Nat.le_of_eq heq
      exact le_trans hmc hc
  · refine ⟨?_, by simp, ?_, by simp⟩
    · intro e he
      rcases List.mem_singleton.mp he with rfl
      exact ⟨rfl, rfl, rfl⟩
    · exact Or.inr ⟨_, List.mem_singleton_self _, rfl, rfl⟩

theorem consistent_telescope (p : Problem S A) (h : S → Nat) (hcons : Consistent p h) :
    ∀ (r : List A) (s : S), validPath p s r = true →
      h s ≤ pathCost p s r + h (runPath p s r) := by
  intro r
  induction r with
  | nil => intro s _; simp [pathCost, runPath]
  | cons a rest ih =>
    intro s hval
    rw [validPath, Bool.and_eq_true, decide_eq_true_eq] at hval
    have h1 := hcons s a hval.1
    have h2 := ih (p.get_successor s a) hval.2
    rw [pathCost, runPath]
    omega

theorem astarInv_cover (p : Problem S A) (h : S → Nat) (init : S) {st : AStarState S A}
    (hI : astarInv p h init st) :
    ∀ q, validPath p init q = true → runPath p init q ∉ st.explored →
      ∃ e ∈ st.frontier, ∃ rz, validPath p e.state rz = true ∧
        runPath p e.state rz = runPath p init q ∧
        e.cost + pathCost p e.state rz ≤ pathCost p init q := by
  intro q
  induction q using List.reverseRecOn with
  | nil =>
    intro _ hnm
    rcases hI.2.2.1 with hin | ⟨e, he, hst, hc0⟩
    · exact absurd hin hnm
    · exact ⟨e, he, [], rfl, hst, by rw [hc0]; simp [pathCost]⟩
  | append_singleton q b ih =>
    intro hval hnm
    rw [runPath_snoc] at hnm
    rw [validPath_snoc, Bool.and_eq_true, decide_eq_true_eq] at hval
    obtain ⟨hvq, hb⟩ := hval
    by_cases hx : runPath p init q ∈ st.explored
    · rcases hI.2.2.2 _ hx b hb with hin | ⟨e, he, hst, hbound⟩
      · exact absurd hin hnm
      · refine ⟨e, he, [], rfl, by rw [runPath, hst, runPath_snoc], ?_⟩
        rw [pathCost_snoc]
        have := hbound q hvq rfl
        simp only [pathCost]
        omega
    · obtain ⟨e, he, rz, hv, hr, hc⟩ := ih hvq hx
      refine ⟨e, he, rz ++ [b], ?_, ?_, ?_⟩
      · rw [validPath_snoc, hv, hr, Bool.true_and, decide_eq_true_eq]
        exact hb
      · rw [runPath_snoc, hr, runPath_snoc]
      · rw [pathCost_snoc, hr, pathCost_snoc]
        omega

theorem astarInv_step (p : Problem S A) (h : S → Nat) (init : S)
    (hcons : Consistent p h) {st st' : AStarState S A}
    (hI : astarInv p h init st) (hs : astarStep p h st = .next st') :
    astarInv p h init st' := by
  obtain ⟨m, rest, hpop, hg, hcase⟩ := astarStep_next p h hs
  obtain ⟨hG1, hG2, hG3, hG4⟩ := hI
  rcases hcase with ⟨hmem, rfl⟩ | ⟨hmem, rfl⟩
  · refine ⟨fun e he => hG1 e (popMinBy_rest_subset astarKey hpop he), hG2, ?_, ?_⟩
    · rcases hG3 with hin | ⟨e, he, hst, hc⟩
      · exact Or.inl hin
      · rcases popMinBy_mem_of_mem astarKey hpop he with rfl | hr
        · exact Or.inl (hst ▸ hmem)
        · exact Or.inr ⟨e, hr, hst, hc⟩
    · intro x hx b hb
      rcases hG4 x hx b hb with hin | ⟨e, he, hst, hbound⟩
      · exact Or.inl hin
      · rcases popMinBy_mem_of_mem astarKey hpop he with rfl | hr
        · exact Or.inl (hst ▸ hmem)
        · exact Or.inr ⟨e, hr, hst, hbound⟩
  · have hmG1 := hG1 m (popMinBy_mem astarKey hpop)
    have hpopt : ∀ q, validPath p init q = true → runPath p init q = m.state →
        m.cost ≤ pathCost p init q := by
      intro q hvq hrq
      obtain ⟨e, he, rz, hv, hr, hc⟩ :=
        astarInv_cover p h init ⟨hG1, hG2, hG3, hG4⟩ q hvq (hrq ▸ hmem)
      have heG1 := hG1 e he
      have hmin := popMinBy_min_pair astarKey hpop he
      have hmf : m.f ≤ e.f := by
        rcases hmin with hlt | ⟨heq, _⟩
        · exact Nat.le_of_lt hlt
        · exact Nat.le_of_eq heq
      have htel := consistent_telescope p h hcons rz e.state hv
      rw [hr, hrq] at htel
      have hkey := hmG1.2.2.2
      have hkey' := heG1.2.2.2
      omega
    constructor
    · intro e he
      dsimp only at he
      rcases List.mem_append.mp he with hr | hc
      · exact hG1 e (popMinBy_rest_subset astarKey hpop hr)
      · obtain ⟨b, hb, h1, h2, h3, h4⟩ :=
          astarChildren_elim p h m.cost m.actions m.state _ _ _ e hc
        refine ⟨?_, ?_, ?_, ?_⟩
        · rw [h4, validPath_snoc, hmG1.1, hmG1.2.1, Bool.true_and, decide_eq_true_eq]
          exact hb
        · rw [h4, runPath_snoc, hmG1.2.1, h1]
        · rw [h4, pathCost_snoc, hmG1.2.1, hmG1.2.2.1, h2]
        · rw [h3, h2, h1]
    constructor
    · intro s hsx
      rcases List.mem_cons.mp hsx with rfl | hsx'
      · exact hg
      · exact hG2 s hsx'
    constructor
    · rcases hG3 with hin | ⟨e, he, hst, hc⟩
      · exact Or.inl (List.mem_cons_of_mem _ hin)
      · rcases popMinBy_mem_of_mem astarKey hpop he with rfl | hr
        · exact Or.inl (hst ▸ List.mem_cons_self _ _)
        · exact Or.inr ⟨e, List.mem_append_left _ hr, hst, hc⟩
    · intro x hx b hb
      rcases List.mem_cons.mp hx with rfl | hx'
      · by_cases hchild : p.get_successor m.state b ∈ m.state :: st.explored
        · exact Or.inl hchild
        · obtain ⟨e, he, h1, h2, _, _⟩ := astarChildren_mem p h m.cost m.actions m.state
            (m.state :: st.explored) (p.get_actions m.state) st.counter b hb hchild
          refine Or.inr ⟨e, List.mem_append_right _ he, h1, ?_⟩
          intro q hvq hrq
          rw [h2]
          exact Nat.add_le_add_right (hpopt q hvq hrq) _
      · rcases hG4 x hx' b hb with hin | ⟨e, he, hst, hbound⟩
        · exact Or.inl (List.mem_cons_of_mem _ hin)
        · rcases popMinBy_mem_of_mem astarKey hpop he with rfl | hr
          · exact Or.inl (hst ▸ List.mem_cons_self _ _)
          · exact Or.inr ⟨e, List.mem_append_left _ hr, hst, hbound⟩

theorem astar_optimal (p : Problem S A) (h : S → Nat) (init : S)
    (hcons : Consistent p h) (hgz : ∀ s, p.is_goal s = true → h s = 0) :
    ∀ fuel r, AStarSearch p h init fuel = some r →
      ∀ q, GoalPath p init q → ∃ acts, r = some acts ∧ GoalPath p init acts ∧
        pathCost p init acts ≤ pathCost p init q := by
  intro fuel r hrun
  rw [AStarSearch] at hrun
  by_cases hg : p.is_goal init = true
  · rw [if_pos hg] at hrun
    cases hrun
    intro q hq
    exact ⟨[], rfl, ⟨rfl, hg⟩, Nat.zero_le _⟩
  · rw [if_neg hg] at hrun
    refine iterLoop_inv (astarStep p h) (astarInv p h init)
      (fun r => ∀ q, GoalPath p init q → ∃ acts, r = some acts ∧ GoalPath p init acts ∧
        pathCost p init acts ≤ pathCost p init q)
      (fun st st' hI hs => astarInv_step p h init hcons hI hs) ?_ fuel _ r ?_ hrun
    · intro st r hI hs q hq
      have hqnex : runPath p init q ∉ st.explored := by
        intro hin
        exact Bool.false_ne_true ((hI.2.1 _ hin).symm.trans hq.2)
      rcases astarStep_done p h hs with ⟨hfr0, rfl⟩ | ⟨m, rest, hpop, hgm, rfl⟩
      · obtain ⟨e, he, _⟩ := astarInv_cover p h init hI q hq.1 hqnex
        rw [hfr0] at he
        cases he
      · obtain ⟨e, he, rz, hv, hr, hc⟩ := astarInv_cover p h init hI q hq.1 hqnex
        have heG1 := hI.1 e he
        have hmG1 := hI.1 m (popMinBy_mem astarKey hpop)
        have hmin := popMinBy_min_pair astarKey hpop he
        have hmf : m.f ≤ e.f := by
          rcases hmin with hlt | ⟨heq, _⟩
          · exact Nat.le_of_lt hlt
          · exact Nat.le_of_eq heq
        have htel := consistent_telescope p h hcons rz e.state hv
        rw [hr] at htel
        have hz1 : h m.state = 0 := hgz _ hgm
        have hz2 : h (runPath p init q) = 0 := hgz _ hq.2
        refine ⟨m.actions, rfl, ⟨hmG1.1, by rw [hmG1.2.1]; exact hgm⟩, ?_⟩
        have hkey := hmG1.2.2.2
        have hkey' := heG1.2.2.2
        rw [hmG1.2.2.1]
        omega
    · refine ⟨?_, by simp, ?_, by simp⟩
      · intro e he
        rcases List.mem_singleton.mp he with rfl
        exact ⟨rfl, rfl, rfl, (Nat.zero_add _).symm⟩
      · exact Or.inr ⟨_, List.mem_singleton_self _, rfl, rfl⟩

/-- Counterexample to claim C1 as stated: on `twoGoalProb` the heuristic
`twoGoalHeur` is non-negative and satisfies the edge triangle inequality
(checked on every action of every state that has actions: only state 0),
a goal is reachable at cost 1 via action 0, yet AStarSearch returns the
path [1] of cost 50, because the heuristic is non-zero on the goal
state 1. -/
theorem claimC1_cex :
    twoGoalProb.get_actions 0 = [0, 1] ∧
    twoGoalProb.get_actions 1 = [] ∧
    twoGoalProb.get_actions 2 = [] ∧
    twoGoalHeur 0 ≤ twoGoalProb.get_cost 0 0 + twoGoalHeur (twoGoalProb.get_successor 0 0) ∧
    twoGoalHeur 0 ≤ twoGoalProb.get_cost 0 1 + twoGoalHeur (twoGoalProb.get_successor 0 1) ∧
    AStarSearch twoGoalProb twoGoalHeur 0 10 = some (some [1]) ∧
    pathCost twoGoalProb 0 [1] = 50 ∧
    validPath twoGoalProb 0 [0] = true ∧
    twoGoalProb.is_goal (runPath twoGoalProb 0 [0]) = true ∧
    pathCost twoGoalProb 0 [0] = 1 ∧
    ¬ (50 : Nat) ≤ 1 := by
  refine ⟨by decide, by decide, by decide, by decide, by decide, rfl, by decide, by decide,
    by decide, by decide, by decide⟩

/-- Claim C1, amended: on finite-reachable problems with a reachable
goal, UniformCostSearch returns a path of minimum accumulated cost among
all valid goal paths, and AStarSearch does the same whenever the supplied
heuristic is non-negative, consistent (edge triangle inequality) and
zero on every goal state; BestFirstSearch (greedy) and DepthFirstSearch
carry no such guarantee, witnessed by concrete problems on which they
return a path of cost 20 (respectively 10) while a goal path of cost 2
(respectively 1) exists. -/
theorem claimC1 :
    (∀ (p : Problem S A) (init : S), FiniteReach p init → GoalReachable p init →
      ∃ fuel acts, UniformCostSearch p init fuel = some (some acts) ∧
        GoalPath p init acts ∧
        ∀ q, GoalPath p init q → pathCost p init acts ≤ pathCost p init q) ∧
    (∀ (p : Problem S A) (h : S → Nat) (init : S), Consistent p h →
      (∀ s, p.is_goal s = true → h s = 0) → FiniteReach p init → GoalReachable p init →
      ∃ fuel acts, AStarSearch p h init fuel = some (some acts) ∧
        GoalPath p init acts ∧
        ∀ q, GoalPath p init q → pathCost p init acts ≤ pathCost p init q) ∧
    (BestFirstSearch greedyTrapProb greedyTrapHeur 0 10 = some (some [1, 0]) ∧
      pathCost greedyTrapProb 0 [1, 0] = 20 ∧
      GoalPath greedyTrapProb 0 [0, 0] ∧ pathCost greedyTrapProb 0 [0, 0] = 2) ∧
    (DepthFirstSearch dfsTrapProb 0 10 = some (some [1, 0]) ∧
      pathCost dfsTrapProb 0 [1, 0] = 10 ∧
      GoalPath dfsTrapProb 0 [0] ∧ pathCost dfsTrapProb 0 [0] = 1) := by
  refine ⟨?_, ?_, ?_, ?_⟩
  · intro p init hfin hreach
    obtain ⟨fuel, r, hr⟩ := ucs_terminates p init hfin
    obtain ⟨q₀, hq₀⟩ := hreach
    obtain ⟨acts, rfl, hgp, hle⟩ := ucs_optimal p init fuel r hr q₀ hq₀
    refine ⟨fuel, acts, hr, hgp, ?_⟩
    intro q hq
    obtain ⟨acts', heq, _, hle'⟩ := ucs_optimal p init fuel _ hr q hq
    cases heq
    exact hle'
  · intro p h init hcons hgz hfin hreach
    obtain ⟨fuel, r, hr⟩ := astar_terminates p h init hfin
    obtain ⟨q₀, hq₀⟩ := hreach
    obtain ⟨acts, rfl, hgp, hle⟩ := astar_optimal p h init hcons hgz fuel r hr q₀ hq₀
    refine ⟨fuel, acts, hr, hgp, ?_⟩
    intro q hq
    obtain ⟨acts', heq, _, hle'⟩ := astar_optimal p h init hcons hgz fuel _ hr q hq
    cases heq
    exact hle'
  · exact ⟨rfl, by decide, ⟨by decide, by decide⟩, by decide⟩
  · exact ⟨rfl, by decide, ⟨by decide, by decide⟩, by decide⟩

/-- Witness for the amended C1 on the scenario-C problem, whose goals
are reachable and whose state space is the closed list [0, 1, 2, 3]. -/
theorem claimC1_witness :
    ∃ fuel acts, UniformCostSearch scenCProb 0 fuel = some (some acts) ∧
      GoalPath scenCProb 0 acts ∧
      ∀ q, GoalPath scenCProb 0 q → pathCost scenCProb 0 acts ≤ pathCost scenCProb 0 q :=
  claimC1.1 scenCProb 0 ⟨[0, 1, 2, 3], by decide, by decide, by decide⟩
    ⟨[0], by decide, by decide⟩

theorem pairwise_le_of_const {l : List Nat} {c : Nat} (hl : ∀ x ∈ l, x = c) :
    l.Pairwise (· ≤ ·) := by
  induction l with
  | nil => exact List.Pairwise.nil
  | cons a t ih =>
    refine List.Pairwise.cons ?_ (ih fun x hx => hl x (List.mem_cons_of_mem _ hx))
    intro x hx
    rw [hl a (List.mem_cons_self _ _), hl x (List.mem_cons_of_mem _ hx)]

theorem first_exit (p : Problem S A) (init : S) (E : List S) (hinit : init ∈ E) :
    ∀ q, validPath p init q = true → runPath p init q ∉ E →
      ∃ q₁ b, validPath p init q₁ = true ∧ b ∈ p.get_actions (runPath p init q₁) ∧
        runPath p init q₁ ∈ E ∧ p.get_successor (runPath p init q₁) b ∉ E := by
  intro q
  induction q using List.reverseRecOn with
  | nil => intro _ hnm; exact absurd hinit hnm
  | append_singleton q c ih =>
    intro hval hnm
    rw [runPath_snoc] at hnm
    rw [validPath_snoc, Bool.and_eq_true, decide_eq_true_eq] at hval
    obtain ⟨hvq, hc⟩ := hval
    by_cases hx : runPath p init q ∈ E
    · exact ⟨q, c, hvq, hc, hx, hnm⟩
    · exact ih hvq hx

theorem bfsInv_step (p : Problem S A) (init : S) {st st' : FrontierState S A}
    (hI : BfsInv p init st) (hs : bfsStep p st = .next st') : BfsInv p init st' := by
  obtain ⟨s, a₀, rest, added, exp', hfr, hexp, rfl⟩ := bfsStep_next p hs
  obtain ⟨h1, h2, h3, h4⟩ := bfsExpand_inr_spec p s a₀ _ _ _ _ hexp
  have hsub : st.explored ⊆ exp' := by
    rw [h1]; exact fun x hx => List.mem_append_right _ hx
  have haddedexp : ∀ e ∈ added, e.1 ∈ exp' := by
    intro e he
    rw [h1]
    exact List.mem_append_left _ (List.mem_reverse.mpr (List.mem_map_of_mem Prod.fst he))
  have hQ1s := hI.entries (s, a₀) (by rw [hfr]; exact List.mem_cons_self _ _)
  have hheadmin : ∀ e ∈ st.frontier, a₀.length ≤ e.2.length := by
    intro e he
    have hsort := hI.sorted
    rw [hfr] at hsort
    simp only [List.map_cons, List.pairwise_cons] at hsort
    rw [hfr] at he
    rcases List.mem_cons.mp he with rfl | hr
    · exact le_rfl
    · exact hsort.1 e.2.length (List.mem_map_of_mem _ hr)
  have haddedlen : ∀ e ∈ added, e.2.length = a₀.length + 1 := by
    intro e he
    obtain ⟨b, hb, he1, he2, he3, he4⟩ := h2 e he
    rw [he2]
    simp
  have hrestmem : ∀ e ∈ rest, e ∈ st.frontier := by
    intro e he
    rw [hfr]
    exact List.mem_cons_of_mem _ he
  have hrestlen : ∀ e ∈ rest, e.2.length ≤ a₀.length + 1 := by
    intro e he
    exact hI.twoLayer e (hrestmem e he) (s, a₀) (by rw [hfr]; exact List.mem_cons_self _ _)
  have hQ2' : ∀ x ∈ exp', p.is_goal x = false := by
    intro x hx
    rw [h1] at hx
    rcases List.mem_append.mp hx with hn | he
    · rw [List.mem_reverse] at hn
      obtain ⟨e, he', rfl⟩ := List.mem_map.mp hn
      obtain ⟨b, hb, hb1, hb2, hb3, hb4⟩ := h2 e he'
      exact hb3
    · exact hI.noGoal x he
  have hchildexp : ∀ b ∈ p.get_actions s, p.get_successor s b ∈ exp' := h3
  refine ⟨hsub hI.initExplored, ?_, hQ2', ?_, ?_, ?_, ?_, ?_⟩
  · -- entries
    intro e he
    dsimp only at he
    rcases List.mem_append.mp he with hr | ha
    · obtain ⟨hv, hrp, hex⟩ := hI.entries e (hrestmem e hr)
      exact ⟨hv, hrp, hsub hex⟩
    · obtain ⟨b, hb, he1, he2, he3, he4⟩ := h2 e ha
      refine ⟨?_, ?_, haddedexp e ha⟩
      · rw [he2, validPath_snoc, hQ1s.1, hQ1s.2.1, Bool.true_and, decide_eq_true_eq]
        exact hb
      · rw [he2, runPath_snoc, hQ1s.2.1, ← he1]
  · -- sorted
    dsimp only
    rw [List.map_append, List.pairwise_append]
    refine ⟨?_, ?_, ?_⟩
    · have hsort := hI.sorted
      rw [hfr] at hsort
      simp only [List.map_cons, List.pairwise_cons] at hsort
      exact hsort.2
    · have hconst : ∀ x ∈ added.map (fun e => e.2.length), x = a₀.length + 1 := by
        intro x hx
        obtain ⟨e, he, rfl⟩ := List.mem_map.mp hx
        exact haddedlen e he
      exact pairwise_le_of_const hconst
    · intro x hx y hy
      obtain ⟨e, he, rfl⟩ := List.mem_map.mp hx
      obtain ⟨e', he', rfl⟩ := List.mem_map.mp hy
      rw [haddedlen e' he']
      exact hrestlen e he
  · -- twoLayer
    intro e he e' he'
    dsimp only at he he'
    rcases List.mem_append.mp he with hr | ha <;>
      rcases List.mem_append.mp he' with hr' | ha'
    · exact hI.twoLayer e (hrestmem e hr) e' (hrestmem e' hr')
    · rw [haddedlen e' ha']
      exact Nat.le_succ_of_le (hrestlen e hr)
    · rw [haddedlen e ha]
      exact Nat.succ_le_succ (hheadmin e' (hrestmem e' hr'))
    · rw [haddedlen e ha, haddedlen e' ha']
      exact Nat.le_succ _
  · -- cover
    intro q hvq hnm
    have hnmold : runPath p init q ∉ st.explored := fun hc => hnm (hsub hc)
    obtain ⟨e₁, he₁, hlen₁⟩ := hI.cover q hvq hnmold
    rw [hfr] at he₁
    rcases List.mem_cons.mp he₁ with rfl | hr₁
    · -- the old witness was the expanded head
      dsimp only at hlen₁
      by_cases hq2 : a₀.length + 2 ≤ q.length
      · -- any entry of the new frontier works, provided it is nonempty
        have hne : rest ++ added ≠ [] := by
          intro hnil
          have hrestnil : rest = [] := by
            cases rest with
            | nil => rfl
            | cons x t => cases hnil
          have haddednil : added = [] := by
            cases added with
            | nil => rfl
            | cons x t =>
              rw [hrestnil] at hnil
              cases hnil
          have hexp' : exp' = st.explored := by
            rw [h1, haddednil]
            rfl
          obtain ⟨q₁, b, hv₁, hb₁, hin₁, hout₁⟩ :=
            first_exit p init exp' (hsub hI.initExplored) q hvq hnm
          rcases hI.pendingOrClosed (runPath p init q₁) (by rw [← hexp']; exact hin₁)
              with hpend | hclosed
          · obtain ⟨e₅, he₅, hu₅⟩ := hpend
            rw [hfr, hrestnil] at he₅
            rcases List.mem_singleton.mp he₅ with rfl
            dsimp only at hu₅
            rw [← hu₅] at hout₁ hb₁
            exact hout₁ (hchildexp b hb₁)
          · exact hout₁ (hsub (hclosed b hb₁))
        obtain ⟨e', he'⟩ := List.exists_mem_of_ne_nil _ hne
        refine ⟨e', he', ?_⟩
        rcases List.mem_append.mp he' with hr' | ha'
        · have := hrestlen e' hr'
          omega
        · rw [haddedlen e' ha']
          omega
      · -- the path has exactly the head's length plus one
        have hqlen : q.length = a₀.length + 1 := by omega
        rcases List.eq_nil_or_concat q with rfl | ⟨q₀, b, rfl⟩
        · simp at hqlen
        · rw [List.concat_eq_append] at hvq hnm hnmold hqlen ⊢
          rw [validPath_snoc, Bool.and_eq_true, decide_eq_true_eq] at hvq
          obtain ⟨hvq₀, hb⟩ := hvq
          rw [runPath_snoc] at hnm
          have hq₀len : q₀.length = a₀.length := by
            rw [List.length_append, List.length_cons, List.length_nil] at hqlen
            omega
          by_cases hu : runPath p init q₀ ∈ st.explored
          · rcases hI.pendingOrClosed _ hu with hpend | hclosed
            · obtain ⟨e₃, he₃, hu₃⟩ := hpend
              rw [hfr] at he₃
              rcases List.mem_cons.mp he₃ with rfl | hr₃
              · dsimp only at hu₃
                rw [← hu₃] at hnm hb
                exact absurd (hchildexp b hb) hnm
              · have hlen₃ := hI.entryOpt e₃ (hrestmem e₃ hr₃) q₀ hvq₀ hu₃.symm
                refine ⟨e₃, List.mem_append_left _ hr₃, ?_⟩
                rw [List.length_append, List.length_cons, List.length_nil]
                omega
            · exact absurd (hsub (hclosed b hb)) hnm
          · obtain ⟨e₂, he₂, hlen₂⟩ := hI.cover q₀ hvq₀ hu
            have := hheadmin e₂ he₂
            omega
    · -- the old witness survives in rest
      exact ⟨e₁, List.mem_append_left _ hr₁, hlen₁⟩
  · -- pendingOrClosed
    intro u hu
    rw [h1] at hu
    rcases List.mem_append.mp hu with hn | he
    · rw [List.mem_reverse] at hn
      obtain ⟨e, he', rfl⟩ := List.mem_map.mp hn
      exact Or.inl ⟨e, List.mem_append_right _ he', rfl⟩
    · rcases hI.pendingOrClosed u he with hpend | hclosed
      · obtain ⟨e₅, he₅, hu₅⟩ := hpend
        rw [hfr] at he₅
        rcases List.mem_cons.mp he₅ with rfl | hr₅
        · dsimp only at hu₅
          exact Or.inr fun b hb => hu₅ ▸ hchildexp b (hu₅ ▸ hb)
        · exact Or.inl ⟨e₅, List.mem_append_left _ hr₅, hu₅⟩
      · exact Or.inr fun b hb => hsub (hclosed b hb)
  · -- entryOpt
    intro e he q hvq hrq
    dsimp only at he
    rcases List.mem_append.mp he with hr | ha
    · exact hI.entryOpt e (hrestmem e hr) q hvq hrq
    · obtain ⟨b, hb, he1, he2, he3, he4⟩ := h2 e ha
      have hnm : runPath p init q ∉ st.explored := by
        rw [hrq]
        exact he4
      obtain ⟨e₄, he₄, hlen₄⟩ := hI.cover q hvq hnm
      have := hheadmin e₄ he₄
      rw [haddedlen e ha]
      omega

theorem bfs_optimal (p : Problem S A) (init : S) :
    ∀ fuel r, BreadthFirstSearch p init fuel = some r →
      ∀ q, GoalPath p init q → ∃ acts, r = some acts ∧ GoalPath p init acts ∧
        acts.length ≤ q.length := by
  intro fuel r hrun
  rw [BreadthFirstSearch] at hrun
  by_cases hg : p.is_goal init = true
  · rw [if_pos hg] at hrun
    cases hrun
    intro q hq
    exact ⟨[], rfl, ⟨rfl, hg⟩, Nat.zero_le _⟩
  · rw [if_neg hg] at hrun
    refine iterLoop_inv (bfsStep p) (BfsInv p init)
      (fun r => ∀ q, GoalPath p init q → ∃ acts, r = some acts ∧ GoalPath p init acts ∧
        acts.length ≤ q.length)
      (fun st st' hI hs => bfsInv_step p init hI hs) ?_ fuel _ r ?_ hrun
    · intro st r hI hs q hq
      have hqnex : runPath p init q ∉ st.explored := fun hin =>
        Bool.false_ne_true ((hI.noGoal _ hin).symm.trans hq.2)
      rcases bfsStep_done p hs with ⟨hfr0, rfl⟩ | ⟨s, a₀, rest, sol, hfr, hexp, rfl⟩
      · obtain ⟨e, he, _⟩ := hI.cover q hq.1 hqnex
        rw [hfr0] at he
        cases he
      · obtain ⟨b, hb, rfl, hbg, hbex⟩ := bfsExpand_inl_spec p s a₀ _ _ _ hexp
        have hQ1s := hI.entries (s, a₀) (by rw [hfr]; exact List.mem_cons_self _ _)
        refine ⟨a₀ ++ [b], rfl, ⟨?_, ?_⟩, ?_⟩
        · rw [validPath_snoc, hQ1s.1, hQ1s.2.1, Bool.true_and, decide_eq_true_eq]
          exact hb
        · rw [runPath_snoc, hQ1s.2.1]
          exact hbg
        · obtain ⟨e, he, hlen⟩ := hI.cover q hq.1 hqnex
          have hmin : a₀.length ≤ e.2.length := by
            have hsort := hI.sorted
            rw [hfr] at hsort
            simp only [List.map_cons, List.pairwise_cons] at hsort
            rw [hfr] at he
            rcases List.mem_cons.mp he with rfl | hr
            · exact le_rfl
            · exact hsort.1 e.2.length (List.mem_map_of_mem _ hr)
          rw [List.length_append, List.length_cons, List.length_nil]
          omega
    · refine ⟨by simp, ?_, ?_, ?_, ?_, ?_, ?_, ?_⟩
      · intro e he
        rcases List.mem_singleton.mp he with rfl
        exact ⟨rfl, rfl, by simp⟩
      · intro s hsx
        rcases List.mem_singleton.mp hsx with rfl
        exact Bool.not_eq_true _ |>.mp hg
      · simp
      · intro e he e' he'
        rcases List.mem_singleton.mp he with rfl
        simp
      · intro q hvq hnm
        refine ⟨(init, []), List.mem_singleton_self _, ?_⟩
        cases q with
        | nil => exact absurd (List.mem_singleton_self init) hnm
        | cons a t => simp
      · intro u hu
        rcases List.mem_singleton.mp hu with rfl
        exact Or.inl ⟨(u, []), List.mem_singleton_self _, rfl⟩
      · intro e he q _ _
        rcases List.mem_singleton.mp he with rfl
        simp

/-- Claim C2: on every finite-reachable problem with a reachable goal —
cyclic state graphs included — BreadthFirstSearch returns a path whose
number of actions is minimal among all valid paths from the initial
state to any goal state. -/
theorem claimC2 (p : Problem S A) (init : S) (hfin : FiniteReach p init)
    (hreach : GoalReachable p init) :
    ∃ fuel acts, BreadthFirstSearch p init fuel = some (some acts) ∧
      GoalPath p init acts ∧
      ∀ q, GoalPath p init q → acts.length ≤ q.length := by
  obtain ⟨fuel, r, hr⟩ := bfs_terminates p init hfin
  obtain ⟨q₀, hq₀⟩ := hreach
  obtain ⟨acts, rfl, hgp, hle⟩ := bfs_optimal p init fuel r hr q₀ hq₀
  refine ⟨fuel, acts, hr, hgp, ?_⟩
  intro q hq
  obtain ⟨acts', heq, _, hle'⟩ := bfs_optimal p init fuel _ hr q hq
  cases heq
  exact hle'

/-- Witness for C2 on the concrete cyclic problem `cycProb`: the goal 2
is reachable through the cycle-bearing state 1. -/
theorem claimC2_witness :
    ∃ fuel acts, BreadthFirstSearch cycProb 0 fuel = some (some acts) ∧
      GoalPath cycProb 0 acts ∧
      ∀ q, GoalPath cycProb 0 q → acts.length ≤ q.length :=
  claimC2 cycProb 0 ⟨[0, 1, 2], by decide, by decide, by decide⟩
    ⟨[0, 1], by decide, by decide⟩

end SearchVerify
